import Mathlib

/-!
Verification development for the `tdc` dynamic predecessor structures.

The embedding below translates, from `src/include/tdc/math/bit_mask.hpp`:
  * `bucket_bv` and `bucket_list` (the two bottom-layer bucket variants of
    `DynIndex`), including their `set` and `pred` member functions;
  * `DynIndex::insert` and `DynIndex::predecessor` (the two-level sampling
    index), with the C++ pointer graph modelled as an explicit heap of
    buckets addressed by allocation index;
and, from `src/unnamed/part_001`:
  * `tdc::intrisics::pcmpgtub`, the packed unsigned byte comparison built
    from the signed MMX primitive `_m_pcmpgtb` and an XOR mask.

Machine integers are modelled as `Nat`; no arithmetic in the translated
routines can overflow a `uint64_t`/`size_t` for 64-bit keys, so the `Nat`
semantics coincides with the C++ semantics on the full input range.
-/

/-- Models `tdc::pred::Result { bool exists; uint64_t pos; }`.
The C++ field `exists` is called `found` here (`exists` is a Lean keyword). -/
structure Result where
  found : Bool
  pos : Nat
deriving Repr, DecidableEq

/-- One bottom bucket of `DynIndex`.  Covers both `bucket_bv` and
`bucket_list`: the stored suffixes are kept as the list `elems`
(for `bucket_bv` this is the list of positions whose bit was set, queried
only through membership; for `bucket_list` it is the `std::vector` itself).
`next_b` is the allocation index of the next bucket, `none` for `nullptr`.
The C++ field `prefix` is called `pfx` here. -/
structure Bucket where
  pfx : Nat
  prev_pred : Nat
  next_b : Option Nat
  elems : List Nat
deriving Repr, DecidableEq, Inhabited

/-- The state of a `DynIndex` instance.  `heap` holds every bucket ever
allocated with `new`, in allocation order; pointers are heap indices.
`m_xf` is the top array of (possibly null) bucket pointers. -/
structure DynState where
  m_size : Nat
  m_min : Nat
  m_max : Nat
  m_xf : List (Option Nat)
  m_first_b : Option Nat
  heap : List Bucket
deriving Repr, DecidableEq

/-- The state built by `DynIndex()`: no key stored, empty top array.
`m_min`/`m_max` are uninitialised in the C++ and never read before first
assignment; they are 0 here. -/
def dynInit : DynState := ⟨0, 0, 0, [], none, []⟩

/-- `bucket_bv::set` / `bucket_list::set` as list operations on `elems`.
`bucket_bv::set(i)` executes `bits[i] = true`; recording the position at the
head of `elems` and testing membership is the same boolean array. -/
def bv_set (i : Nat) (l : List Nat) : List Nat := i :: l

/-- `bucket_list::set(i)` executes `list.push_back(i)` where `list` holds
`uint16_t`, so the stored value is `i` reduced mod `2^16`. -/
def list_set (i : Nat) (l : List Nat) : List Nat := l ++ [i % 2 ^ 16]

/-- The downward scan of `bucket_bv::pred`: starting at bit `i` and moving
down to bit 0, return the first position whose bit is set, if any. -/
def bvScan (elems : List Nat) : Nat → Option Nat
  | 0 => if 0 ∈ elems then some 0 else none
  | i + 1 => if i + 1 ∈ elems then some (i + 1) else bvScan elems i

/-- `bucket_bv::pred(i)`: first set bit at or below `i` gives
`(prefix << b_wordl) + position`; otherwise `prev_pred`. -/
def bucket_bv_pred (b : Bucket) (s : Nat) (i : Nat) : Nat :=
  match bvScan b.elems i with
  | some j => (b.pfx <<< s) + j
  | none => b.prev_pred

/-- First pass of `bucket_list::pred`: scan for the first element `≤ i`;
on success return it together with the remainder of the list. -/
def pass1 (i : Nat) : List Nat → Option (Nat × List Nat)
  | [] => none
  | e :: r => if e ≤ i then some (e, r) else pass1 i r

/-- Second pass of `bucket_list::pred`: continue the scan, replacing `p`
by any later element that is larger than `p` yet still `≤ i`. -/
def pass2 (i : Nat) (p : Nat) : List Nat → Nat
  | [] => p
  | e :: r => pass2 i (if p < e ∧ e ≤ i then e else p) r

/-- `bucket_list::pred(i)` as written in the source: a first pass that stops
at the first element `≤ i`, then a second pass from that point maximising
over the remaining elements `≤ i`; `prev_pred` if the first pass fails. -/
def bucket_list_pred (b : Bucket) (s : Nat) (i : Nat) : Nat :=
  match pass1 i b.elems with
  | none => b.prev_pred
  | some (p, r) => (b.pfx <<< s) + pass2 i p r

/-- Overwrite the entry at index `i` of a list by applying `f`
(out-of-range indices leave the list unchanged). -/
def modifyAt {α : Type} (f : α → α) : Nat → List α → List α
  | _, [] => []
  | 0, b :: r => f b :: r
  | i + 1, b :: r => b :: modifyAt f i r

/-- The gap-filling loop at the end of `DynIndex::insert`: overwrite the
leading run of entries equal to `tgt` with the new bucket pointer, stopping
at the first entry that differs. -/
def fillFrom (tgt : Option Nat) (nid : Nat) : List (Option Nat) → List (Option Nat)
  | [] => []
  | e :: r => if e = tgt then some nid :: fillFrom tgt nid r else e :: r

/-- The common tail of `DynIndex::insert` (executed by every branch except
the exact-bucket case): update `m_min`/`m_max`, store the new bucket at
`m_xf[key_pre]`, and run the gap-filling loop on the entries above it. -/
def insertTail (st : DynState) (key : Nat) (key_pre nid : Nat) : DynState :=
  let xf1 := st.m_xf.set key_pre (some nid)
  let xf2 :=
    if key_pre + 1 < xf1.length then
      let tgt := xf1.getD (key_pre + 1) none
      match tgt with
      | none => xf1.take (key_pre + 1) ++ fillFrom tgt nid (xf1.drop (key_pre + 1))
      | some nb =>
        if (st.heap.getD nb default).pfx < key_pre then
          xf1.take (key_pre + 1) ++ fillFrom tgt nid (xf1.drop (key_pre + 1))
        else xf1
    else xf1
  { st with m_min := min key st.m_min, m_max := max key st.m_max, m_xf := xf2 }

/-- The `insert` branch taken when `key_pre ≥ m_xf.size()` and a key is
already stored: a key is inserted that needs a greater bucket.  Links the
new bucket after `m_xf.back()`, extends `m_xf` filling the gap with the
old back pointer. -/
def insertGrow (sset : Nat → List Nat → List Nat) (s : Nat) (st : DynState) (key : Nat) :
    DynState :=
  let key_pre := key >>> s
  let key_suf := key &&& (2 ^ s - 1)
  let nid := st.heap.length
  let backPtr := (st.m_xf.getLast?).getD none
  let new_b : Bucket := ⟨key_pre, st.m_max, none, sset key_suf []⟩
  let heap1 := match backPtr with
    | some bid => modifyAt (fun b => { b with next_b := some nid }) bid st.heap
    | none => st.heap
  insertTail { st with
    heap := heap1 ++ [new_b],
    m_xf := st.m_xf ++ List.replicate (key_pre + 1 - st.m_xf.length) backPtr } key key_pre nid

/-- The `insert` branch for the very first insertion (`m_size == 0`):
creates the first bucket, sets `m_min = m_max = key`, increments `m_size`,
and sizes `m_xf` filling with null. -/
def insertFirst (sset : Nat → List Nat → List Nat) (s : Nat) (st : DynState) (key : Nat) :
    DynState :=
  let key_pre := key >>> s
  let key_suf := key &&& (2 ^ s - 1)
  let nid := st.heap.length
  let new_b : Bucket := ⟨key_pre, 0, st.m_first_b, sset key_suf []⟩
  insertTail { st with
    m_size := st.m_size + 1,
    m_min := key, m_max := key,
    m_first_b := some nid,
    heap := st.heap ++ [new_b],
    m_xf := st.m_xf ++ List.replicate (key_pre + 1 - st.m_xf.length) none } key key_pre nid

/-- The `insert` branch taken when the key precedes the first bucket:
the old first bucket's `prev_pred` becomes `key` and the new bucket is
linked in front. -/
def insertFront (sset : Nat → List Nat → List Nat) (s : Nat) (st : DynState) (key : Nat) :
    DynState :=
  let key_pre := key >>> s
  let key_suf := key &&& (2 ^ s - 1)
  let nid := st.heap.length
  let heap1 := match st.m_first_b with
    | some fid => modifyAt (fun b => { b with prev_pred := key }) fid st.heap
    | none => st.heap
  let new_b : Bucket := ⟨key_pre, 0, st.m_first_b, sset key_suf []⟩
  insertTail { st with m_first_b := some nid, heap := heap1 ++ [new_b] } key key_pre nid

/-- The `insert` branch taken when the exact bucket for `key_pre` exists:
add the suffix and update the next bucket's `prev_pred`; returns early
(no common tail). -/
def insertExact (sset : Nat → List Nat → List Nat) (s : Nat) (st : DynState) (key : Nat)
    (kid : Nat) : DynState :=
  let key_suf := key &&& (2 ^ s - 1)
  let kb := st.heap.getD kid default
  let heap1 := modifyAt (fun b => { b with elems := sset key_suf b.elems }) kid st.heap
  let heap2 := match kb.next_b with
    | some nxt => modifyAt (fun b => { b with prev_pred := max key b.prev_pred }) nxt heap1
    | none => heap1
  { st with heap := heap2, m_min := min key st.m_min, m_max := max key st.m_max }

/-- The `insert` branch taken when `m_xf[key_pre]` holds a bucket with a
smaller prefix: slot a new bucket into the gap between that bucket and its
successor. -/
def insertGap (sset : Nat → List Nat → List Nat) (s : Nat) (st : DynState) (key : Nat)
    (kid : Nat) : DynState :=
  let key_pre := key >>> s
  let key_suf := key &&& (2 ^ s - 1)
  let nid := st.heap.length
  let oldNext := (st.heap.getD kid default).next_b
  let pp := match oldNext with
    | some q => (st.heap.getD q default).prev_pred
    | none => 0
  let new_b : Bucket := ⟨key_pre, pp, oldNext, sset key_suf []⟩
  let heap1 := modifyAt (fun b => { b with next_b := some nid }) kid st.heap
  let heap2 := match oldNext with
    | some q => modifyAt (fun b => { b with prev_pred := key }) q heap1
    | none => heap1
  insertTail { st with heap := heap2 ++ [new_b] } key key_pre nid

/-- `DynIndex::insert`, parametrised by the bucket `set` operation `sset`
(`bv_set` for `bucket_bv`, `list_set` for `bucket_list`, mirroring the
`std::conditional` template choice) and the sampling width `s`
(`t_sampling`, so `b_wordl = s`).  The branch structure follows the C++
exactly; each branch body is one of the `insert…` functions above.
Null-pointer dereferences of the C++ (impossible in reachable states, as
proved below) are modelled by leaving the state unchanged or using 0. -/
def dynInsert (sset : Nat → List Nat → List Nat) (s : Nat) (st : DynState) (key : Nat) :
    DynState :=
  let key_pre := key >>> s
  if st.m_xf.length ≤ key_pre then
    if st.m_size ≠ 0 then insertGrow sset s st key
    else insertFirst sset s st key
  else if key_pre < st.m_min >>> s then insertFront sset s st key
  else
    match st.m_xf.getD key_pre none with
    | none => st
    | some kid =>
      if (st.heap.getD kid default).pfx = key_pre then insertExact sset s st key kid
      else insertGap sset s st key kid

/-- `DynIndex::predecessor`, parametrised by the bucket `pred` routine
(`bucket_bv_pred` or `bucket_list_pred`). -/
def dynPredecessor (bpred : Bucket → Nat → Nat → Nat) (s : Nat) (st : DynState) (x : Nat) :
    Result :=
  if st.m_size = 0 then ⟨false, 1⟩
  else if x < st.m_min then ⟨false, 0⟩
  else if st.m_max ≤ x then ⟨true, st.m_max⟩
  else match st.m_xf.getD (x >>> s) none with
    | some bid => ⟨true, bpred (st.heap.getD bid default) s (x &&& (2 ^ s - 1))⟩
    | none => ⟨true, 0⟩

/-- The state of a `DynIndex` after inserting the keys of `ks` in order. -/
def dynOf (sset : Nat → List Nat → List Nat) (s : Nat) (ks : List Nat) : DynState :=
  ks.foldl (dynInsert sset s) dynInit

/-- `max {e ∈ L : e ≤ i}` as an option (the mathematical predecessor of `i`
within the multiset `L`), used to state functional-correctness claims. -/
def maxLe (i : Nat) : List Nat → Option Nat
  | [] => none
  | e :: r =>
    if e ≤ i then
      match maxLe i r with
      | none => some e
      | some m => some (max e m)
    else maxLe i r

/-- Maximum of a list of naturals, with 0 for the empty list. -/
def maxOf (l : List Nat) : Nat := l.foldl max 0

/-- Minimum of a nonempty list of naturals (0 for the empty list). -/
def minOf : List Nat → Nat
  | [] => 0
  | a :: r => r.foldl min a

section Primitives

/-- Byte lane `i` of a packed 64-bit word. -/
def byteOf (x : Nat) (i : Nat) : Nat := (x >>> (8 * i)) % 256

/-- The value of a byte reinterpreted as a signed `int8` (two's complement),
as the MMX lanes of `_m_pcmpgtb` read it. -/
def toInt8 (v : Nat) : Int := if v < 128 then (v : Int) else (v : Int) - 256

/-- Pack the byte values `f 0, …, f (n-1)` into one word, lane `j` at
bit offset `8 j`. -/
def packBytes (f : Nat → Nat) : Nat → Nat
  | 0 => 0
  | n + 1 => packBytes f n + (f n) <<< (8 * n)

/-- The MMX intrinsic `_m_pcmpgtb`: per 8-bit lane, all-ones when the lane
of `a` is strictly greater than the lane of `b` as SIGNED bytes. -/
def m_pcmpgtb (a b : Nat) : Nat :=
  packBytes (fun i => if toInt8 (byteOf b i) < toInt8 (byteOf a i) then 255 else 0) 8

/-- The constant `0x8080808080808080` XORed onto both operands. -/
def XOR_MASK : Nat := 0x8080808080808080

/-- `tdc::intrisics::pcmpgtub` from `src/unnamed/part_001`: XOR both packed
words with `XOR_MASK`, then compare with the signed byte comparison. -/
def pcmpgtub (a b : Nat) : Nat := m_pcmpgtb (a ^^^ XOR_MASK) (b ^^^ XOR_MASK)

end Primitives

/-- Modelled from the spec: the `DynamicOctrie` predecessor contract.  The
Octrie source (`tdc/pred/dynamic/dynamic_octrie.hpp`) is not under `src/`;
per the spec it maintains the set of inserted keys and `predecessor(x)`
reports the largest key `≤ x` (§4.D, §6), returning `{false, 1}` on an
empty structure and `{false, 0}` when no key is `≤ x` (§8, boundary rows
1 and 2). -/
def octriePredecessor (S : List Nat) (x : Nat) : Result :=
  match S with
  | [] => ⟨false, 1⟩
  | _ :: _ =>
    match maxLe x S with
    | some m => ⟨true, m⟩
    | none => ⟨false, 0⟩

/-- Insert a key into an ascending list, keeping it ascending. -/
def insSorted (k : Nat) : List Nat → List Nat
  | [] => [k]
  | e :: r => if k ≤ e then k :: e :: r else e :: insSorted k r

/-- Insertion sort into ascending order. -/
def sortAsc (l : List Nat) : List Nat := l.foldr insSorted []

/-- Modelled from the spec: the batched index wrapper
(`dynamic_index_batched.hpp`, not under `src/`).  Insertions accumulate in
a buffer; a query first flushes the buffer, sorted ascending, into the
underlying `DynIndex`, and then queries it (§4.F). -/
def batchedPredecessor (sset : Nat → List Nat → List Nat)
    (bpred : Bucket → Nat → Nat → Nat) (s : Nat) (buffer : List Nat) (x : Nat) : Result :=
  dynPredecessor bpred s (dynOf sset s (sortAsc buffer)) x

lemma and_mask_eq_mod (k s : Nat) : k &&& (2 ^ s - 1) = k % 2 ^ s := by
  apply Nat.eq_of_testBit_eq
  intro i
  simp [Nat.testBit_and, Nat.testBit_mod_two_pow, Nat.testBit_two_pow_sub_one, Bool.and_comm]

lemma byteOf_lt (x i : Nat) : byteOf x i < 256 := Nat.mod_lt _ (by norm_num)

lemma byteOf_xor (x y i : Nat) : byteOf (x ^^^ y) i = byteOf x i ^^^ byteOf y i := by
  apply Nat.eq_of_testBit_eq
  intro j
  have h256 : (256 : Nat) = 2 ^ 8 := by norm_num
  simp only [byteOf, h256, Nat.testBit_mod_two_pow, Nat.testBit_shiftRight, Nat.testBit_xor]
  cases Nat.decLt j 8 with
  | isTrue h => simp [h]
  | isFalse h => simp [h]

lemma packBytes_lt (f : Nat → Nat) (n : Nat) (hf : ∀ j, j < n → f j < 256) :
    packBytes f n < 2 ^ (8 * n) := by
  induction n with
  | zero => simp [packBytes]
  | succ m ih =>
    have h1 : packBytes f m < 2 ^ (8 * m) := ih (fun j hj => hf j (Nat.lt_succ_of_lt hj))
    have h2 : f m < 256 := hf m (Nat.lt_succ_self m)
    have : packBytes f (m + 1) = packBytes f m + f m * 2 ^ (8 * m) := by
      simp [packBytes, Nat.shiftLeft_eq]
    rw [this]
    have h3 : 2 ^ (8 * (m + 1)) = 2 ^ (8 * m) * 256 := by
      rw [Nat.mul_succ, pow_add]
      norm_num
    rw [h3]
    nlinarith [Nat.pos_pow_of_pos (8 * m) (show 0 < 2 by norm_num)]

lemma byteOf_packBytes (f : Nat → Nat) (n : Nat) (hf : ∀ j, j < n → f j < 256)
    (i : Nat) (hi : i < n) : byteOf (packBytes f n) i = f i := by
  induction n with
  | zero => omega
  | succ m ih =>
    have hpe : packBytes f (m + 1) = packBytes f m + f m * 2 ^ (8 * m) := by
      simp [packBytes, Nat.shiftLeft_eq]
    rcases Nat.lt_or_ge i m with him | him
    · have hstep : byteOf (packBytes f (m + 1)) i = byteOf (packBytes f m) i := by
        simp only [byteOf, hpe, Nat.shiftRight_eq_div_pow]
        have hsplit : f m * 2 ^ (8 * m) = f m * 2 ^ (8 * m - 8 * i) * 2 ^ (8 * i) := by
          rw [mul_assoc, ← pow_add]
          congr 2
          omega
        rw [hsplit, Nat.add_mul_div_right _ _ (Nat.pos_pow_of_pos _ (by norm_num))]
        have hdvd : (256 : Nat) ∣ f m * 2 ^ (8 * m - 8 * i) := by
          have : (256 : Nat) = 2 ^ 8 := by norm_num
          rw [this]
          exact Dvd.dvd.mul_left (pow_dvd_pow 2 (by omega)) _
        omega
      rw [hstep]
      exact ih (fun j hj => hf j (Nat.lt_succ_of_lt hj)) him
    · have hieq : i = m := by omega
      subst hieq
      simp only [byteOf, hpe, Nat.shiftRight_eq_div_pow]
      rw [Nat.add_mul_div_right _ _ (Nat.pos_pow_of_pos _ (by norm_num)),
        Nat.div_eq_of_lt (packBytes_lt f i (fun j hj => hf j (Nat.lt_succ_of_lt hj)))]
      have := hf i (Nat.lt_succ_self i)
      omega

lemma byteOf_xor_mask_eq : ∀ i, i < 8 → ∀ a, byteOf (a ^^^ XOR_MASK) i = byteOf a i ^^^ 128 := by
  intro i hi a
  rw [byteOf_xor]
  have : byteOf XOR_MASK i = 128 := by
    interval_cases i <;> decide
  rw [this]

set_option maxRecDepth 8000 in
lemma xor_128_eq : ∀ u, u < 256 → u ^^^ 128 = if u < 128 then u + 128 else u - 128 := by decide

lemma toInt8_xor128_lt_iff (u v : Nat) (hu : u < 256) (hv : v < 256) :
    (toInt8 (v ^^^ 128) < toInt8 (u ^^^ 128)) ↔ v < u := by
  rw [xor_128_eq u hu, xor_128_eq v hv]
  unfold toInt8
  split_ifs <;> omega

/-- C8: `pcmpgtub(a, b)` returns the word whose byte lane `i` (for `i < 8`)
is `0xFF` exactly when byte `i` of `a` is strictly greater than byte `i` of
`b` as unsigned 8-bit integers, and `0x00` otherwise. -/
theorem pcmpgtub_unsigned_byte_gt (a b i : Nat) (hi : i < 8) :
    byteOf (pcmpgtub a b) i = if byteOf b i < byteOf a i then 255 else 0 := by
  unfold pcmpgtub m_pcmpgtb
  rw [byteOf_packBytes _ 8 (fun j _ => by split <;> omega) i hi]
  rw [byteOf_xor_mask_eq i hi a, byteOf_xor_mask_eq i hi b]
  by_cases h : byteOf b i < byteOf a i
  · rw [if_pos ((toInt8_xor128_lt_iff _ _ (byteOf_lt a i) (byteOf_lt b i)).mpr h), if_pos h]
  · rw [if_neg (fun hc => h ((toInt8_xor128_lt_iff _ _ (byteOf_lt a i) (byteOf_lt b i)).mp hc)),
      if_neg h]

theorem pcmpgtub_unsigned_byte_gt_witness :
    (1 : Nat) < 8 ∧
      byteOf (pcmpgtub 0x0102FF4021000080 0x0201FE4120FF0180) 1 =
        if byteOf 0x0201FE4120FF0180 1 < byteOf 0x0102FF4021000080 1 then 255 else 0 :=
  ⟨by decide, pcmpgtub_unsigned_byte_gt _ _ 1 (by decide)⟩

lemma pass1_eq_none (i : Nat) (L : List Nat) (h : pass1 i L = none) : maxLe i L = none := by
  induction L with
  | nil => rfl
  | cons e r ih =>
    by_cases he : e ≤ i
    · simp [pass1, he] at h
    · simp only [pass1, if_neg he] at h
      simp only [maxLe, if_neg he]
      exact ih h

lemma pass1_eq_some (i : Nat) (L : List Nat) (p : Nat) (r : List Nat)
    (h : pass1 i L = some (p, r)) : p ≤ i ∧ maxLe i L = maxLe i (p :: r) := by
  induction L with
  | nil => simp [pass1] at h
  | cons e rest ih =>
    by_cases he : e ≤ i
    · simp only [pass1, if_pos he, Option.some.injEq, Prod.mk.injEq] at h
      obtain ⟨rfl, rfl⟩ := h
      exact ⟨he, rfl⟩
    · simp only [pass1, if_neg he] at h
      obtain ⟨hp, hmax⟩ := ih h
      refine ⟨hp, ?_⟩
      simp only [maxLe, if_neg he]
      exact hmax

lemma pass2_eq_maxLe (i : Nat) (r : List Nat) : ∀ p, pass2 i p r =
    match maxLe i r with
    | none => p
    | some m => max p m := by
  induction r with
  | nil => intro p; rfl
  | cons e rest ih =>
    intro p
    simp only [pass2, maxLe]
    by_cases he : e ≤ i
    · rw [ih]
      by_cases hpe : p < e
      · simp only [if_pos (And.intro hpe he), if_pos he]
        cases hm : maxLe i rest <;>
          simp only [Nat.max_def] <;> split_ifs <;> omega
      · have : ¬(p < e ∧ e ≤ i) := fun hc => hpe hc.1
        simp only [if_neg this, if_pos he]
        cases hm : maxLe i rest <;>
          simp only [Nat.max_def] <;> split_ifs <;> omega
    · have : ¬(p < e ∧ e ≤ i) := fun hc => he hc.2
      simp only [if_neg this, if_neg he]
      exact ih p

/-- C4: `bucket_list::pred(i)` returns `(prefix << s) + max {e ∈ L : e ≤ i}`
when some stored element is `≤ i`, and `prev_pred` otherwise — the two
passes with the early first-pass break compute exactly the maximum. -/
theorem bucket_list_pred_eq_maxLe (b : Bucket) (s i : Nat) :
    bucket_list_pred b s i =
      match maxLe i b.elems with
      | some m => (b.pfx <<< s) + m
      | none => b.prev_pred := by
  unfold bucket_list_pred
  cases hp : pass1 i b.elems with
  | none => rw [pass1_eq_none i _ hp]
  | some v =>
    obtain ⟨p, r⟩ := v
    obtain ⟨hpi, hmax⟩ := pass1_eq_some i _ p r hp
    rw [hmax]
    show b.pfx <<< s + pass2 i p r = _
    rw [pass2_eq_maxLe]
    simp only [maxLe, if_pos hpi]
    cases hm : maxLe i r <;> simp

lemma insertTail_m_size (st : DynState) (key kp nid : Nat) :
    (insertTail st key kp nid).m_size = st.m_size := rfl

lemma dynInsert_m_size_ne (sset : Nat → List Nat → List Nat) (s : Nat) (st : DynState)
    (key : Nat) (h : st.m_size ≠ 0) : (dynInsert sset s st key).m_size = st.m_size := by
  unfold dynInsert
  dsimp only
  by_cases h1 : st.m_xf.length ≤ key >>> s
  · rw [if_pos h1, if_pos h]
    rfl
  · rw [if_neg h1]
    by_cases h2 : key >>> s < st.m_min >>> s
    · rw [if_pos h2]
      rfl
    · rw [if_neg h2]
      cases hx : st.m_xf.getD (key >>> s) none with
      | none => simp only [hx]
      | some kid =>
        simp only [hx]
        split
        · rfl
        · rfl

lemma dynInsert_init_m_size (sset : Nat → List Nat → List Nat) (s key : Nat) :
    (dynInsert sset s dynInit key).m_size = 1 := by
  unfold dynInsert dynInit
  simp only [List.length_nil, Nat.zero_le, if_true, ne_eq, not_true_eq_false, if_false]
  rfl

lemma foldl_m_size (sset : Nat → List Nat → List Nat) (s : Nat) :
    ∀ (ks : List Nat) (st : DynState), st.m_size ≠ 0 →
      (ks.foldl (dynInsert sset s) st).m_size = st.m_size := by
  intro ks
  induction ks with
  | nil => intro st _; rfl
  | cons k r ih =>
    intro st h
    have h1 := dynInsert_m_size_ne sset s st k h
    simp only [List.foldl_cons]
    rw [ih (dynInsert sset s st k) (by omega), h1]

/-- C9: `m_size` is incremented only by the very first insertion, so it is
1 after every nonempty insertion sequence, and `predecessor` returns the
empty result `{false, 1}` exactly when no insertion was ever performed. -/
theorem dynIndex_m_size_stuck_at_one (sset : Nat → List Nat → List Nat) (s : Nat)
    (ks : List Nat) :
    (dynOf sset s ks).m_size = (if ks = [] then 0 else 1) ∧
      ∀ (bpred : Bucket → Nat → Nat → Nat) (x : Nat),
        (dynPredecessor bpred s (dynOf sset s ks) x = ⟨false, 1⟩ ↔ ks = []) := by
  have hsize : (dynOf sset s ks).m_size = (if ks = [] then 0 else 1) := by
    cases ks with
    | nil => rfl
    | cons k r =>
      simp only [dynOf, List.foldl_cons, if_neg (List.cons_ne_nil k r)]
      rw [foldl_m_size sset s r _ (by rw [dynInsert_init_m_size]; omega),
        dynInsert_init_m_size]
  refine ⟨hsize, fun bpred x => ?_⟩
  constructor
  · intro hres
    by_contra hne
    rw [if_neg hne] at hsize
    unfold dynPredecessor at hres
    rw [hsize] at hres
    simp only [one_ne_zero, if_false] at hres
    split_ifs at hres with h1 h2
    · exact absurd (congrArg Result.pos hres) (by simp)
    · exact absurd (congrArg Result.found hres) (by simp)
    · revert hres
      split <;> intro hres <;> exact absurd (congrArg Result.found hres) (by simp)
  · intro hnil
    subst hnil
    rfl

section ListHelpers

variable {α : Type}

lemma getD_set_eq (l : List α) (i : Nat) (v d : α) (h : i < l.length) :
    (l.set i v).getD i d = v := by simp [List.getD, h]

lemma getD_set_ne (l : List α) (i j : Nat) (v d : α) (h : i ≠ j) :
    (l.set i v).getD j d = l.getD j d := by simp [List.getD, List.getElem?_set_ne h]

lemma getD_append_left (l1 l2 : List α) (i : Nat) (d : α) (h : i < l1.length) :
    (l1 ++ l2).getD i d = l1.getD i d := by simp [List.getD, List.getElem?_append_left h]

lemma getD_append_right (l1 l2 : List α) (i : Nat) (d : α) (h : l1.length ≤ i) :
    (l1 ++ l2).getD i d = l2.getD (i - l1.length) d := by
  simp [List.getD, List.getElem?_append_right h]

lemma getD_replicate (n : Nat) (a d : α) (i : Nat) (h : i < n) :
    (List.replicate n a).getD i d = a := by simp [List.getD, List.getElem?_replicate, h]

lemma getD_length_le (l : List α) (i : Nat) (d : α) (h : l.length ≤ i) : l.getD i d = d := by
  simp [List.getD, List.getElem?_eq_none h]

lemma getLast?_getD (l : List α) (d : α) : l.getLast?.getD d = l.getD (l.length - 1) d := by
  rw [List.getD, List.getLast?_eq_getElem?, List.get?_eq_getElem?]

lemma length_modifyAt (f : α → α) : ∀ (i : Nat) (l : List α),
    (modifyAt f i l).length = l.length := by
  intro i l
  induction l generalizing i with
  | nil => cases i <;> rfl
  | cons b r ih =>
    cases i with
    | zero => rfl
    | succ j => simp [modifyAt, ih j]

lemma getD_modifyAt_eq (f : α → α) (i : Nat) (l : List α) (d : α) (h : i < l.length) :
    (modifyAt f i l).getD i d = f (l.getD i d) := by
  induction l generalizing i with
  | nil => simp at h
  | cons b r ih =>
    cases i with
    | zero => simp [modifyAt, List.getD]
    | succ j =>
      simp only [modifyAt, List.getD_cons_succ]
      exact ih j (by simpa using h)

lemma getD_modifyAt_ne (f : α → α) (i j : Nat) (l : List α) (d : α) (h : i ≠ j) :
    (modifyAt f i l).getD j d = l.getD j d := by
  induction l generalizing i j with
  | nil => cases i <;> rfl
  | cons b r ih =>
    cases i with
    | zero =>
      cases j with
      | zero => exact absurd rfl h
      | succ j' => simp [modifyAt]
    | succ i' =>
      cases j with
      | zero => simp [modifyAt]
      | succ j' =>
        simp only [modifyAt, List.getD_cons_succ]
        exact ih i' j' (by omega)

lemma length_fillFrom (tgt : Option Nat) (nid : Nat) : ∀ l : List (Option Nat),
    (fillFrom tgt nid l).length = l.length := by
  intro l
  induction l with
  | nil => rfl
  | cons e r ih =>
    by_cases he : e = tgt <;> simp [fillFrom, he, ih]

lemma getD_fillFrom (tgt : Option Nat) (nid : Nat) : ∀ (l : List (Option Nat)) (j : Nat),
    (fillFrom tgt nid l).getD j none =
      if ∀ j', j' ≤ j → j' < l.length → l.getD j' none = tgt then
        (if j < l.length then some nid else none)
      else l.getD j none := by
  intro l
  induction l with
  | nil => intro j; simp [fillFrom, List.getD]
  | cons e r ih =>
    intro j
    by_cases he : e = tgt
    · have hf : fillFrom tgt nid (e :: r) = some nid :: fillFrom tgt nid r := by
        simp [fillFrom, he]
      rw [hf]
      cases j with
      | zero =>
        have hcond : ∀ j', j' ≤ 0 → j' < (e :: r).length → (e :: r).getD j' none = tgt := by
          intro j' hj' _
          interval_cases j'
          simpa using he
        simp [hcond, he]
      | succ j' =>
        simp only [List.getD_cons_succ]
        rw [ih j']
        by_cases hall : ∀ j'', j'' ≤ j' → j'' < r.length → r.getD j'' none = tgt
        · have hall2 : ∀ j'', j'' ≤ j' + 1 → j'' < r.length + 1 →
              (e :: r).getD j'' none = tgt := by
            intro j'' hj'' hlen
            cases j'' with
            | zero => simpa using he
            | succ j3 =>
              simp only [List.getD_cons_succ]
              exact hall j3 (by omega) (by omega)
          simp only [if_pos hall, List.length_cons, if_pos hall2]
          by_cases hlt : j' < r.length
          · simp only [if_pos hlt, if_pos (show j' + 1 < r.length + 1 by omega)]
          · simp only [if_neg hlt, if_neg (show ¬ j' + 1 < r.length + 1 by omega)]
        · have hall2 : ¬ ∀ j'', j'' ≤ j' + 1 → j'' < r.length + 1 →
              (e :: r).getD j'' none = tgt := by
            intro hc
            apply hall
            intro j3 h3 h3l
            have := hc (j3 + 1) (by omega) (by omega)
            simpa using this
          simp only [List.length_cons, if_neg hall, if_neg hall2]
    · have hf : fillFrom tgt nid (e :: r) = e :: r := by
        simp [fillFrom, he]
      rw [hf]
      have : ¬ ∀ j', j' ≤ j → j' < (e :: r).length → (e :: r).getD j' none = tgt := by
        intro hc
        exact he (hc 0 (by omega) (by simp))
      rw [if_neg this]

end ListHelpers

section MaxOfHelpers

lemma foldl_max_init (l : List Nat) : ∀ a, l.foldl max a = max a (maxOf l) := by
  unfold maxOf
  induction l with
  | nil => intro a; simp
  | cons e r ih =>
    intro a
    simp only [List.foldl_cons]
    rw [ih (max a e), ih (max 0 e)]
    simp only [Nat.max_def]
    split_ifs <;> omega

lemma maxOf_cons (e : Nat) (r : List Nat) : maxOf (e :: r) = max (max 0 e) (maxOf r) := by
  unfold maxOf
  simp only [List.foldl_cons]
  rw [foldl_max_init]
  rfl

lemma maxOf_append (l1 l2 : List Nat) : maxOf (l1 ++ l2) = max (maxOf l1) (maxOf l2) := by
  unfold maxOf
  rw [List.foldl_append, foldl_max_init]
  rfl

lemma maxOf_le (l : List Nat) (M : Nat) (h : ∀ k ∈ l, k ≤ M) : maxOf l ≤ M := by
  induction l with
  | nil => simp [maxOf]
  | cons e r ih =>
    rw [maxOf_cons]
    exact max_le (max_le (Nat.zero_le M) (h e (by simp)))
      (ih (fun k hk => h k (by simp [hk])))

lemma le_maxOf (l : List Nat) (k : Nat) (h : k ∈ l) : k ≤ maxOf l := by
  induction l with
  | nil => simp at h
  | cons e r ih =>
    rw [maxOf_cons]
    rcases List.mem_cons.mp h with rfl | hr
    · exact le_trans (le_max_right 0 k) (le_max_left _ _)
    · exact le_trans (ih hr) (le_max_right _ _)

lemma maxOf_eq_of_mem (l : List Nat) (M : Nat) (hM : M ∈ l) (h : ∀ k ∈ l, k ≤ M) :
    maxOf l = M := Nat.le_antisymm (maxOf_le l M h) (le_maxOf l M hM)

lemma maxOf_nil : maxOf [] = 0 := rfl

lemma maxOf_singleton (k : Nat) : maxOf [k] = k := by simp [maxOf]

end MaxOfHelpers

section ShiftHelpers

lemma shiftRight_mono (a b s : Nat) (h : a ≤ b) : a >>> s ≤ b >>> s := by
  simp only [Nat.shiftRight_eq_div_pow]
  exact Nat.div_le_div_right h

lemma lt_of_shiftRight_lt (a b s : Nat) (h : a >>> s < b >>> s) : a < b := by
  by_contra hc
  exact absurd (shiftRight_mono b a s (by omega)) (by omega)

lemma shiftRight_lt_iff_lt_shiftLeft (a p s : Nat) :
    a >>> s < p ↔ a < p <<< s := by
  simp only [Nat.shiftRight_eq_div_pow, Nat.shiftLeft_eq]
  rw [Nat.div_lt_iff_lt_mul (Nat.pos_pow_of_pos s (by norm_num))]

lemma shiftLeft_le_of_shiftRight_le (p a s : Nat) (h : p ≤ a >>> s) : p <<< s ≤ a := by
  by_contra hc
  exact absurd ((shiftRight_lt_iff_lt_shiftLeft a p s).mpr (by omega)) (by omega)

lemma shiftRight_shiftLeft_add_mod (k s : Nat) : (k >>> s) <<< s + k % 2 ^ s = k := by
  simp only [Nat.shiftRight_eq_div_pow, Nat.shiftLeft_eq]
  rw [Nat.mul_comm]
  exact Nat.div_add_mod k (2 ^ s)

lemma mod_lt_two_pow (k s : Nat) : k % 2 ^ s < 2 ^ s :=
  Nat.mod_lt _ (Nat.pos_pow_of_pos s (by norm_num))

lemma shiftRight_max (a b s : Nat) : (max a b) >>> s = max (a >>> s) (b >>> s) := by
  rcases Nat.le_total a b with h | h
  · rw [Nat.max_eq_right h, Nat.max_eq_right (shiftRight_mono a b s h)]
  · rw [Nat.max_eq_left h, Nat.max_eq_left (shiftRight_mono b a s h)]

lemma eq_of_shiftRight_eq_of_mod_eq (a b s : Nat) (h1 : a >>> s = b >>> s)
    (h2 : a % 2 ^ s = b % 2 ^ s) : a = b := by
  have ha := shiftRight_shiftLeft_add_mod a s
  have hb := shiftRight_shiftLeft_add_mod b s
  rw [h1, h2] at ha
  omega

end ShiftHelpers

/-- The bucket stored at heap index `id` (`default` for a dangling index). -/
def bAt (st : DynState) (id : Nat) : Bucket := st.heap.getD id default

/-- The bucket `set` operation behaves as set insertion on the stored
suffixes, for in-range suffixes.  `bv_set` satisfies this for every `s`;
`list_set` satisfies it whenever `s ≤ 16` (the vector stores `uint16_t`). -/
def SetOk (s : Nat) (sset : Nat → List Nat → List Nat) : Prop :=
  ∀ i l e, i < 2 ^ s → (e ∈ sset i l ↔ e = i ∨ e ∈ l)

lemma bv_set_ok (s : Nat) : SetOk s bv_set := by
  intro i l e _
  simp [bv_set]

lemma list_set_ok (s : Nat) (hs : s ≤ 16) : SetOk s list_set := by
  intro i l e hi
  have h16 : i < 65536 :=
    lt_of_lt_of_le hi (le_trans (Nat.pow_le_pow_right (by norm_num) hs) (by norm_num))
  simp [list_set, Nat.mod_eq_of_lt h16, or_comm]

/-- The step function encoded by a bucket directory `L` (a list of
`(prefix, heap index)` pairs in ascending prefix order): the heap index
recorded for the greatest listed prefix `≤ q`, or `none` below the first. -/
def stepFun : List (Nat × Nat) → Nat → Option Nat
  | [], _ => none
  | (p, id) :: rest, q => if q < p then none else some ((stepFun rest q).getD id)

section StepFunLemmas

lemma stepFun_eq_none_of_lt (L : List (Nat × Nat)) (q : Nat)
    (h : ∀ pr ∈ L, q < pr.1) : stepFun L q = none := by
  cases L with
  | nil => rfl
  | cons hd rest =>
    obtain ⟨p, id⟩ := hd
    simp only [stepFun]
    rw [if_pos (h (p, id) (by simp))]

lemma stepFun_lt_of_eq_none (L : List (Nat × Nat)) (q : Nat)
    (hs : L.Pairwise (fun a b => a.1 < b.1)) (h : stepFun L q = none) :
    ∀ pr ∈ L, q < pr.1 := by
  induction L with
  | nil => simp
  | cons hd rest ih =>
    obtain ⟨p, id⟩ := hd
    simp only [stepFun] at h
    intro pr hpr
    by_cases hq : q < p
    · rcases List.mem_cons.mp hpr with rfl | hr
      · exact hq
      · exact lt_trans hq ((List.pairwise_cons.mp hs).1 pr hr)
    · rw [if_neg hq] at h
      simp at h

lemma stepFun_isSome_of_head (p id q : Nat) (rest : List (Nat × Nat)) (h : p ≤ q) :
    ∃ r, stepFun ((p, id) :: rest) q = some r := by
  simp only [stepFun]
  rw [if_neg (by omega)]
  exact ⟨_, rfl⟩

lemma stepFun_spec (L : List (Nat × Nat)) (q : Nat)
    (hs : L.Pairwise (fun a b => a.1 < b.1)) (r : Nat) (h : stepFun L q = some r) :
    ∃ p, (p, r) ∈ L ∧ p ≤ q ∧ ∀ pr ∈ L, pr.1 ≤ q → pr.1 ≤ p := by
  induction L with
  | nil => simp [stepFun] at h
  | cons hd rest ih =>
    obtain ⟨p, id⟩ := hd
    simp only [stepFun] at h
    by_cases hq : q < p
    · rw [if_pos hq] at h
      simp at h
    · rw [if_neg hq] at h
      cases hrest : stepFun rest q with
      | none =>
        rw [hrest] at h
        simp only [Option.getD_none, Option.some.injEq] at h
        subst h
        refine ⟨p, by simp, by omega, ?_⟩
        intro pr hpr hprq
        rcases List.mem_cons.mp hpr with rfl | hr
        · rfl
        · exact absurd hprq
            (by have := stepFun_lt_of_eq_none rest q (List.pairwise_cons.mp hs).2 hrest pr hr; omega)
      | some r' =>
        rw [hrest] at h
        simp only [Option.getD_some, Option.some.injEq] at h
        subst h
        obtain ⟨p', hp'mem, hp'le, hp'max⟩ := ih (List.pairwise_cons.mp hs).2 hrest
        refine ⟨p', List.mem_cons_of_mem _ hp'mem, hp'le, ?_⟩
        intro pr hpr hprq
        rcases List.mem_cons.mp hpr with rfl | hr
        · exact le_of_lt ((List.pairwise_cons.mp hs).1 _ hp'mem)
        · exact hp'max pr hr hprq

lemma stepFun_all_le (L : List (Nat × Nat)) (q : Nat) (pr' : Nat × Nat)
    (hall : ∀ pr ∈ L, pr.1 ≤ q) (hlast : L.getLast? = some pr') :
    stepFun L q = some pr'.2 := by
  induction L with
  | nil => simp at hlast
  | cons hd rest ih =>
    obtain ⟨p, id⟩ := hd
    simp only [stepFun]
    rw [if_neg (by have := hall (p, id) (by simp); omega)]
    cases rest with
    | nil =>
      have h1 : pr' = (p, id) := by
        have h0 : (([(p, id)] : List (Nat × Nat)).getLast?) = some (p, id) := rfl
        rw [h0] at hlast
        exact (Option.some.inj hlast).symm
      subst h1
      rfl
    | cons hd2 rest2 =>
      have hlast2 : (hd2 :: rest2).getLast? = some pr' := by
        rwa [List.getLast?_cons_cons] at hlast
      rw [ih (fun pr hpr => hall pr (List.mem_cons_of_mem _ hpr)) hlast2]
      rfl

lemma stepFun_append_single_lt (L : List (Nat × Nat)) (pk nid q : Nat) (h : q < pk) :
    stepFun (L ++ [(pk, nid)]) q = stepFun L q := by
  induction L with
  | nil => simp [stepFun, if_pos h]
  | cons hd rest ih =>
    obtain ⟨p, id⟩ := hd
    simp only [List.cons_append, stepFun, List.append_eq]
    by_cases hq : q < p
    · rw [if_pos hq, if_pos hq]
    · rw [if_neg hq, if_neg hq, ih]

lemma stepFun_append_single_ge (L : List (Nat × Nat)) (pk nid q : Nat)
    (hall : ∀ pr ∈ L, pr.1 ≤ q) (h : pk ≤ q) :
    stepFun (L ++ [(pk, nid)]) q = some nid := by
  induction L with
  | nil => simp [stepFun, if_neg (by omega : ¬ q < pk)]
  | cons hd rest ih =>
    obtain ⟨p, id⟩ := hd
    simp only [List.cons_append, stepFun, List.append_eq]
    rw [if_neg (by have := hall (p, id) (by simp); omega),
      ih (fun pr hpr => hall pr (List.mem_cons_of_mem _ hpr))]
    rfl

lemma stepFun_insert_lt (X Y : List (Nat × Nat)) (pk nid q : Nat)
    (hY : ∀ pr ∈ Y, pk ≤ pr.1) (h : q < pk) :
    stepFun (X ++ (pk, nid) :: Y) q = stepFun (X ++ Y) q := by
  induction X with
  | nil =>
    simp only [List.nil_append, stepFun]
    rw [if_pos h, stepFun_eq_none_of_lt Y q (fun pr hpr => by have := hY pr hpr; omega)]
  | cons hd rest ih =>
    obtain ⟨p, id⟩ := hd
    simp only [List.cons_append, stepFun, List.append_eq]
    by_cases hq : q < p
    · rw [if_pos hq, if_pos hq]
    · rw [if_neg hq, if_neg hq, ih]

lemma stepFun_insert_hit (X Y : List (Nat × Nat)) (pk nid q : Nat)
    (hX : ∀ pr ∈ X, pr.1 ≤ q) (hk : pk ≤ q) (hY : ∀ pr ∈ Y, q < pr.1) :
    stepFun (X ++ (pk, nid) :: Y) q = some nid := by
  induction X with
  | nil =>
    simp only [List.nil_append, stepFun]
    rw [if_neg (by omega), stepFun_eq_none_of_lt Y q hY]
    rfl
  | cons hd rest ih =>
    obtain ⟨p, id⟩ := hd
    simp only [List.cons_append, stepFun, List.append_eq]
    rw [if_neg (by have := hX (p, id) (by simp); omega),
      ih (fun pr hpr => hX pr (List.mem_cons_of_mem _ hpr))]
    rfl

lemma stepFun_insert_ge (X Y : List (Nat × Nat)) (pk nid q r : Nat)
    (hY : stepFun Y q = some r) (hk : pk ≤ q) :
    stepFun (X ++ (pk, nid) :: Y) q = stepFun (X ++ Y) q := by
  induction X with
  | nil =>
    simp only [List.nil_append, stepFun]
    rw [if_neg (by omega), hY]
    rfl
  | cons hd rest ih =>
    obtain ⟨p, id⟩ := hd
    simp only [List.cons_append, stepFun, List.append_eq]
    by_cases hq : q < p
    · rw [if_pos hq, if_pos hq]
    · rw [if_neg hq, if_neg hq, ih]

end StepFunLemmas

/-- The directory `L` correctly describes the `DynIndex` state `st` holding
the (nonempty) multiset of inserted keys `S`.  This is the inductive
invariant of `DynIndex::insert`. -/
structure InvAt (s : Nat) (S : List Nat) (st : DynState) (L : List (Nat × Nat)) : Prop where
  lNe : L ≠ []
  sorted : L.Pairwise (fun a b => a.1 < b.1)
  nodup : (L.map Prod.snd).Nodup
  bounded : ∀ pr ∈ L, pr.2 < st.heap.length
  cover : ∀ p, (∃ id, (p, id) ∈ L) ↔ ∃ k ∈ S, k >>> s = p
  size1 : st.m_size = 1
  minLb : ∀ k ∈ S, st.m_min ≤ k
  minMem : st.m_min ∈ S
  maxUb : ∀ k ∈ S, k ≤ st.m_max
  maxMem : st.m_max ∈ S
  xfLen : st.m_xf.length = (st.m_max >>> s) + 1
  firstB : st.m_first_b = L.head?.map Prod.snd
  chain : L.Chain' (fun a b => (bAt st a.2).next_b = some b.2)
  lastNone : ∀ pr, L.getLast? = some pr → (bAt st pr.2).next_b = none
  pfxEq : ∀ pr ∈ L, (bAt st pr.2).pfx = pr.1
  elemsEq : ∀ pr ∈ L, ∀ e, (e ∈ (bAt st pr.2).elems ↔ ∃ k ∈ S, k >>> s = pr.1 ∧ k % 2 ^ s = e)
  prevEq : ∀ pr ∈ L, (bAt st pr.2).prev_pred = maxOf (S.filter (fun k => k >>> s < pr.1))
  xfEq : ∀ p, p < st.m_xf.length → st.m_xf.getD p none = stepFun L p

/-- The reachable-state invariant: after inserting `S` the state is `dynInit`
when `S = []`, and otherwise is described by some directory `L`. -/
def DynInv (s : Nat) (S : List Nat) (st : DynState) : Prop :=
  match S with
  | [] => st = dynInit
  | _ :: _ => ∃ L, InvAt s S st L

section InvDerived

lemma mem_of_getLast?_eq {α : Type} (l : List α) (a : α) (h : l.getLast? = some a) : a ∈ l := by
  obtain ⟨hne, rfl⟩ := List.mem_getLast?_eq_getLast (show a ∈ l.getLast? from h)
  exact List.getLast_mem hne

lemma pairwise_le_getLast (L : List (Nat × Nat))
    (hs : L.Pairwise (fun a b => a.1 < b.1)) (x : Nat × Nat) (hx : x ∈ L)
    (y : Nat × Nat) (hy : L.getLast? = some y) : x.1 ≤ y.1 := by
  induction L with
  | nil => simp at hx
  | cons hd rest ih =>
    cases rest with
    | nil =>
      have h1 : y = hd := by
        have h0 : (([hd] : List (Nat × Nat)).getLast?) = some hd := rfl
        rw [h0] at hy
        exact (Option.some.inj hy).symm
      subst h1
      simp at hx
      subst hx
      rfl
    | cons hd2 rest2 =>
      have hy2 : (hd2 :: rest2).getLast? = some y := by
        rwa [List.getLast?_cons_cons] at hy
      rcases List.mem_cons.mp hx with rfl | hr
      · have hymem : y ∈ hd2 :: rest2 := mem_of_getLast?_eq _ _ hy2
        exact le_of_lt ((List.pairwise_cons.mp hs).1 y hymem)
      · exact ih (List.pairwise_cons.mp hs).2 hr hy2

lemma pairwise_head_le (L : List (Nat × Nat))
    (hs : L.Pairwise (fun a b => a.1 < b.1)) (x : Nat × Nat) (hx : x ∈ L)
    (y : Nat × Nat) (hy : L.head? = some y) : y.1 ≤ x.1 := by
  cases L with
  | nil => simp at hx
  | cons hd rest =>
    have h1 : y = hd := Option.some.inj hy.symm
    subst h1
    rcases List.mem_cons.mp hx with rfl | hr
    · rfl
    · exact le_of_lt ((List.pairwise_cons.mp hs).1 x hr)

lemma InvAt.mem_pfx_bounds {s : Nat} {S : List Nat} {st : DynState} {L : List (Nat × Nat)}
    (h : InvAt s S st L) (pr : Nat × Nat) (hpr : pr ∈ L) :
    st.m_min >>> s ≤ pr.1 ∧ pr.1 ≤ st.m_max >>> s := by
  obtain ⟨k, hk, hkp⟩ := (h.cover pr.1).mp ⟨pr.2, by simpa using hpr⟩
  rw [← hkp]
  exact ⟨shiftRight_mono _ _ s (h.minLb k hk), shiftRight_mono _ _ s (h.maxUb k hk)⟩

lemma InvAt.head_pfx {s : Nat} {S : List Nat} {st : DynState} {L : List (Nat × Nat)}
    (h : InvAt s S st L) (pr : Nat × Nat) (hh : L.head? = some pr) :
    pr.1 = st.m_min >>> s := by
  have h1 : st.m_min >>> s ≤ pr.1 := (h.mem_pfx_bounds pr (List.mem_of_mem_head? hh)).1
  obtain ⟨id0, hid0⟩ := (h.cover (st.m_min >>> s)).mpr ⟨st.m_min, h.minMem, rfl⟩
  have h2 : pr.1 ≤ st.m_min >>> s := pairwise_head_le L h.sorted _ hid0 pr hh
  omega

lemma InvAt.last_pfx {s : Nat} {S : List Nat} {st : DynState} {L : List (Nat × Nat)}
    (h : InvAt s S st L) (pr : Nat × Nat) (hh : L.getLast? = some pr) :
    pr.1 = st.m_max >>> s := by
  have h1 : pr.1 ≤ st.m_max >>> s := (h.mem_pfx_bounds pr (mem_of_getLast?_eq _ _ hh)).2
  obtain ⟨id0, hid0⟩ := (h.cover (st.m_max >>> s)).mpr ⟨st.m_max, h.maxMem, rfl⟩
  have h2 : st.m_max >>> s ≤ pr.1 := pairwise_le_getLast L h.sorted _ hid0 pr hh
  omega

lemma InvAt.xf_back {s : Nat} {S : List Nat} {st : DynState} {L : List (Nat × Nat)}
    (h : InvAt s S st L) (pr : Nat × Nat) (hh : L.getLast? = some pr) :
    (st.m_xf.getLast?).getD none = some pr.2 := by
  have hlen := h.xfLen
  rw [getLast?_getD, hlen, Nat.add_sub_cancel, h.xfEq _ (by omega)]
  exact stepFun_all_le L _ pr
    (fun pr' hpr' => by have := (h.mem_pfx_bounds pr' hpr').2; omega) hh

end InvDerived

lemma invat_first (sset : Nat → List Nat → List Nat) (s key : Nat) (hset : SetOk s sset) :
    InvAt s [key] (dynInsert sset s dynInit key) [(key >>> s, 0)] := by
  have hd : dynInsert sset s dynInit key = insertFirst sset s dynInit key := by
    unfold dynInsert
    dsimp only
    rw [if_pos (by simp [dynInit])]
    rw [if_neg (by simp [dynInit])]
  have hstate : insertFirst sset s dynInit key =
      { m_size := 1, m_min := key, m_max := key,
        m_xf := (List.replicate (key >>> s + 1) none).set (key >>> s) (some 0),
        m_first_b := some 0,
        heap := [⟨key >>> s, 0, none, sset (key &&& (2 ^ s - 1)) []⟩] } := by
    unfold insertFirst insertTail dynInit
    dsimp only
    simp only [List.nil_append, List.length_nil, Nat.sub_zero, List.length_set,
      List.length_replicate, lt_self_iff_false, if_false, Nat.min_self, Nat.max_self,
      Nat.zero_add]
  rw [hd, hstate]
  constructor
  case lNe => simp
  case sorted => simp
  case nodup => simp
  case bounded => intro pr hpr; simp at hpr; simp [hpr]
  case cover =>
    intro p
    constructor
    · rintro ⟨id, hid⟩
      simp at hid
      exact ⟨key, by simp, hid.1.symm⟩
    · rintro ⟨k, hk, hkp⟩
      simp at hk
      subst hk
      exact ⟨0, by simp [hkp]⟩
  case size1 => rfl
  case minLb => intro k hk; simp at hk; subst hk; exact le_refl _
  case minMem => simp
  case maxUb => intro k hk; simp at hk; subst hk; exact le_refl _
  case maxMem => simp
  case xfLen => simp
  case firstB => rfl
  case chain => simp
  case lastNone =>
    intro pr hpr
    have h1 : pr = (key >>> s, 0) := by
      have h0 : (([(key >>> s, 0)] : List (Nat × Nat)).getLast?) = some (key >>> s, 0) := rfl
      rw [h0] at hpr
      exact (Option.some.inj hpr).symm
    subst h1
    rfl
  case pfxEq => intro pr hpr; simp at hpr; simp [hpr, bAt, List.getD]
  case elemsEq =>
    intro pr hpr e
    simp only [List.mem_singleton] at hpr
    subst hpr
    have hsuf : key &&& (2 ^ s - 1) = key % 2 ^ s := and_mask_eq_mod key s
    show e ∈ sset (key &&& (2 ^ s - 1)) [] ↔ _
    rw [hsuf, hset (key % 2 ^ s) [] e (mod_lt_two_pow key s)]
    constructor
    · rintro (rfl | he)
      · exact ⟨key, by simp⟩
      · simp at he
    · rintro ⟨k, hk, hkp, hke⟩
      simp at hk
      subst hk
      exact Or.inl hke.symm
  case prevEq =>
    intro pr hpr
    simp only [List.mem_singleton] at hpr
    subst hpr
    show (0 : Nat) = maxOf ([key].filter (fun k => k >>> s < (key >>> s, 0).1))
    have hfilter : ([key].filter (fun k => k >>> s < (key >>> s, 0).1)) = [] := by
      simp
    rw [hfilter]
    rfl
  case xfEq =>
    intro p hp
    simp only [List.length_set, List.length_replicate] at hp
    show ((List.replicate (key >>> s + 1) none).set (key >>> s) (some 0)).getD p none = _
    by_cases hpk : p = key >>> s
    · subst hpk
      rw [getD_set_eq _ _ _ _ (by simp)]
      simp [stepFun]
    · rw [getD_set_ne _ _ _ _ _ (fun hc => hpk hc.symm),
        getD_replicate _ _ _ _ hp]
      have hplt : p < key >>> s := by omega
      simp [stepFun, hplt]

section CaseHelpers

lemma modifyAt_of_length_le {α : Type} (f : α → α) (i : Nat) (l : List α)
    (h : l.length ≤ i) : modifyAt f i l = l := by
  induction l generalizing i with
  | nil => cases i <;> rfl
  | cons b r ih =>
    cases i with
    | zero => simp at h
    | succ j =>
      simp only [modifyAt]
      rw [ih j (by simpa using h)]

lemma snd_unique {L : List (Nat × Nat)} (hn : (L.map Prod.snd).Nodup)
    (x y : Nat × Nat) (hx : x ∈ L) (hy : y ∈ L) (h : x.2 = y.2) : x = y :=
  List.inj_on_of_nodup_map hn hx hy h

lemma max_shiftRight_eq (key m s : Nat) (h : key >>> s ≤ m >>> s) :
    (max key m) >>> s = m >>> s := by
  rw [shiftRight_max]
  exact Nat.max_eq_right h

lemma min_mem_append (key m : Nat) (S : List Nat) (hm : m ∈ S) :
    min key m ∈ S ++ [key] := by
  rcases Nat.le_total key m with hle | hle
  · rw [Nat.min_eq_left hle]
    simp
  · rw [Nat.min_eq_right hle]
    simp [hm]

lemma max_mem_append (key m : Nat) (S : List Nat) (hm : m ∈ S) :
    max key m ∈ S ++ [key] := by
  rcases Nat.le_total key m with hle | hle
  · rw [Nat.max_eq_right hle]
    simp [hm]
  · rw [Nat.max_eq_left hle]
    simp

lemma filter_append_key_out (S : List Nat) (key : Nat) (s r : Nat)
    (h : ¬ key >>> s < r) :
    (S ++ [key]).filter (fun k => k >>> s < r) = S.filter (fun k => k >>> s < r) := by
  rw [List.filter_append]
  simp [h]

lemma filter_append_key_in (S : List Nat) (key : Nat) (s r : Nat)
    (h : key >>> s < r) :
    (S ++ [key]).filter (fun k => k >>> s < r) = S.filter (fun k => k >>> s < r) ++ [key] := by
  rw [List.filter_append]
  simp [h]

lemma maxOf_dominated {s : Nat} {S : List Nat} {st : DynState} {L : List (Nat × Nat)}
    (h : InvAt s S st L) (key q r : Nat) (hqL : ∃ id, (q, id) ∈ L)
    (hkq : key >>> s < q) (hqr : q < r) :
    maxOf ((S ++ [key]).filter (fun k => k >>> s < r)) =
      maxOf (S.filter (fun k => k >>> s < r)) := by
  rw [filter_append_key_in S key s r (by omega), maxOf_append, maxOf_singleton]
  obtain ⟨k0, hk0S, hk0p⟩ := (h.cover q).mp hqL
  have hk0f : k0 ∈ S.filter (fun k => k >>> s < r) := by
    rw [List.mem_filter]
    refine ⟨hk0S, ?_⟩
    simp only [decide_eq_true_eq, hk0p]
    omega
  have h1 : k0 ≤ maxOf (S.filter (fun k => k >>> s < r)) := le_maxOf _ _ hk0f
  have h2 : key < q <<< s := (shiftRight_lt_iff_lt_shiftLeft key q s).mp hkq
  have h3 : q <<< s ≤ k0 := shiftLeft_le_of_shiftRight_le q k0 s (by omega)
  exact Nat.max_eq_left (by omega)

lemma bucket_getD_cases (l : List Bucket) (f : Bucket → Bucket) (i id : Nat) :
    (modifyAt f i l).getD id default =
      if id = i ∧ id < l.length then f (l.getD id default) else l.getD id default := by
  by_cases h1 : id = i
  · subst h1
    by_cases h2 : id < l.length
    · rw [getD_modifyAt_eq _ _ _ _ h2, if_pos ⟨rfl, h2⟩]
    · rw [if_neg (fun hc => h2 hc.2), modifyAt_of_length_le f id l (by omega)]
  · rw [getD_modifyAt_ne _ _ _ _ _ (fun hc => h1 hc.symm), if_neg (fun hc => h1 hc.1)]

end CaseHelpers

lemma invat_exact (s : Nat) (sset : Nat → List Nat → List Nat) (hset : SetOk s sset)
    (S : List Nat) (st : DynState) (L : List (Nat × Nat)) (h : InvAt s S st L)
    (key kid : Nat) (hmem : (key >>> s, kid) ∈ L) :
    InvAt s (S ++ [key]) (insertExact sset s st key kid) L := by
  have hkid_lt : kid < st.heap.length := h.bounded _ hmem
  have hkple : key >>> s ≤ st.m_max >>> s := (h.mem_pfx_bounds _ hmem).2
  obtain ⟨X, Y, hXY⟩ := List.append_of_mem hmem
  set st' := insertExact sset s st key kid with hst'
  -- the heap of the new state
  have hheap : st'.heap =
      (match (st.heap.getD kid default).next_b with
       | some nxt => modifyAt (fun b => { b with prev_pred := max key b.prev_pred }) nxt
           (modifyAt (fun b => { b with elems := sset (key &&& (2 ^ s - 1)) b.elems }) kid st.heap)
       | none => modifyAt (fun b => { b with elems := sset (key &&& (2 ^ s - 1)) b.elems }) kid
           st.heap) := rfl
  have hxf : st'.m_xf = st.m_xf := by
    rw [hst']
    unfold insertExact
    cases (st.heap.getD kid default).next_b <;> rfl
  have hfst : st'.m_first_b = st.m_first_b := by
    rw [hst']
    unfold insertExact
    cases (st.heap.getD kid default).next_b <;> rfl
  have hsize : st'.m_size = st.m_size := by
    rw [hst']
    unfold insertExact
    cases (st.heap.getD kid default).next_b <;> rfl
  have hmin : st'.m_min = min key st.m_min := by
    rw [hst']
    unfold insertExact
    cases (st.heap.getD kid default).next_b <;> rfl
  have hmax : st'.m_max = max key st.m_max := by
    rw [hst']
    unfold insertExact
    cases (st.heap.getD kid default).next_b <;> rfl
  have hhlen : st'.heap.length = st.heap.length := by
    rw [hheap]
    cases (st.heap.getD kid default).next_b <;>
      simp [length_modifyAt]
  -- bucket-level effects
  have hfields : ∀ id, (bAt st' id).next_b = (bAt st id).next_b ∧
      (bAt st' id).pfx = (bAt st id).pfx := by
    intro id
    unfold bAt
    rw [hheap]
    by_cases hid : id < st.heap.length
    · cases (st.heap.getD kid default).next_b with
      | none =>
        rw [bucket_getD_cases]
        split_ifs <;> exact ⟨rfl, rfl⟩
      | some nxt =>
        rw [bucket_getD_cases, length_modifyAt, bucket_getD_cases]
        split_ifs <;> exact ⟨rfl, rfl⟩
    · cases (st.heap.getD kid default).next_b with
      | none =>
        rw [getD_length_le _ _ _ (by rw [length_modifyAt]; omega),
          getD_length_le st.heap id default (by omega)]
        exact ⟨rfl, rfl⟩
      | some nxt =>
        rw [getD_length_le _ _ _ (by rw [length_modifyAt, length_modifyAt]; omega),
          getD_length_le st.heap id default (by omega)]
        exact ⟨rfl, rfl⟩
  have hnext : ∀ id, (bAt st' id).next_b = (bAt st id).next_b := fun id => (hfields id).1
  have hpfx : ∀ id, (bAt st' id).pfx = (bAt st id).pfx := fun id => (hfields id).2
  have helems : ∀ id, (bAt st' id).elems =
      (if id = kid ∧ id < st.heap.length then
        sset (key &&& (2 ^ s - 1)) ((bAt st id).elems)
      else (bAt st id).elems) := by
    intro id
    unfold bAt
    rw [hheap]
    by_cases hid : id < st.heap.length
    · cases (st.heap.getD kid default).next_b with
      | none =>
        rw [bucket_getD_cases]
        split_ifs <;> rfl
      | some nxt =>
        rw [bucket_getD_cases, length_modifyAt, bucket_getD_cases]
        split_ifs <;> rfl
    · rw [if_neg (fun hc => hid hc.2)]
      cases (st.heap.getD kid default).next_b with
      | none =>
        rw [getD_length_le _ _ _ (by rw [length_modifyAt]; omega),
          getD_length_le st.heap id default (by omega)]
      | some nxt =>
        rw [getD_length_le _ _ _ (by rw [length_modifyAt, length_modifyAt]; omega),
          getD_length_le st.heap id default (by omega)]
  have helems_kid : (bAt st' kid).elems = sset (key &&& (2 ^ s - 1)) ((bAt st kid).elems) := by
    rw [helems kid, if_pos ⟨rfl, hkid_lt⟩]
  have helems_other : ∀ id, id ≠ kid → (bAt st' id).elems = (bAt st id).elems := by
    intro id hik
    rw [helems id, if_neg (fun hc => hik hc.1)]
  have hprev : ∀ id, (bAt st' id).prev_pred =
      (match (st.heap.getD kid default).next_b with
       | some nxt =>
         if id = nxt ∧ id < st.heap.length then max key ((bAt st id).prev_pred)
         else (bAt st id).prev_pred
       | none => (bAt st id).prev_pred) := by
    intro id
    unfold bAt
    rw [hheap]
    cases (st.heap.getD kid default).next_b with
    | none =>
      dsimp only
      by_cases hid : id < st.heap.length
      · rw [bucket_getD_cases]
        split_ifs <;> rfl
      · rw [getD_length_le _ _ _ (by rw [length_modifyAt]; omega),
          getD_length_le st.heap id default (by omega)]
    | some nxt =>
      dsimp only
      by_cases hid : id < st.heap.length
      · rw [bucket_getD_cases, length_modifyAt, bucket_getD_cases]
        split_ifs <;> rfl
      · rw [getD_length_le _ _ _ (by rw [length_modifyAt, length_modifyAt]; omega),
          getD_length_le st.heap id default (by omega),
          if_neg (fun hc => hid hc.2)]
  have hprev_other : ∀ id, (bAt st kid).next_b ≠ some id →
      (bAt st' id).prev_pred = (bAt st id).prev_pred := by
    intro id hne
    rw [hprev id]
    cases hnb : (st.heap.getD kid default).next_b with
    | none => rfl
    | some nxt =>
      have hinn : id ≠ nxt := by
        intro hc
        subst hc
        exact hne (by rw [show (bAt st kid).next_b = (st.heap.getD kid default).next_b from rfl,
          hnb])
      dsimp only
      rw [if_neg (fun hc => hinn hc.1)]
  have hprev_nxt : ∀ nxt, (bAt st kid).next_b = some nxt → nxt < st.heap.length →
      (bAt st' nxt).prev_pred = max key ((bAt st nxt).prev_pred) := by
    intro nxt hnb hnxtlt
    rw [hprev nxt, show (st.heap.getD kid default).next_b = some nxt from hnb]
    dsimp only
    rw [if_pos ⟨rfl, hnxtlt⟩]
  -- ordering facts from the decomposition
  have hsorted := h.sorted
  rw [hXY] at hsorted
  have hX_lt : ∀ x ∈ X, x.1 < key >>> s := by
    intro x hx
    have := (List.pairwise_append.mp hsorted).2.2 x hx (key >>> s, kid) (by simp)
    simpa using this
  have hY_gt : ∀ y ∈ Y, key >>> s < y.1 := by
    intro y hy
    have := (List.pairwise_cons.mp (List.pairwise_append.mp hsorted).2.1).1 y hy
    simpa using this
  constructor
  case lNe => exact h.lNe
  case sorted => exact h.sorted
  case nodup => exact h.nodup
  case bounded => intro pr hpr; rw [hhlen]; exact h.bounded pr hpr
  case cover =>
    intro p
    rw [h.cover p]
    constructor
    · rintro ⟨k, hk, hkp⟩
      exact ⟨k, by simp [hk], hkp⟩
    · rintro ⟨k, hk, hkp⟩
      rcases (List.mem_append.mp hk) with hk | hk
      · exact ⟨k, hk, hkp⟩
      · simp only [List.mem_singleton] at hk
        subst hk
        subst hkp
        exact (h.cover (k >>> s)).mp ⟨kid, hmem⟩
  case size1 => rw [hsize]; exact h.size1
  case minLb =>
    intro k hk
    rw [hmin]
    rcases List.mem_append.mp hk with hk | hk
    · exact le_trans (Nat.min_le_right _ _) (h.minLb k hk)
    · simp only [List.mem_singleton] at hk
      subst hk
      exact Nat.min_le_left _ _
  case minMem => rw [hmin]; exact min_mem_append key st.m_min S h.minMem
  case maxUb =>
    intro k hk
    rw [hmax]
    rcases List.mem_append.mp hk with hk | hk
    · exact le_trans (h.maxUb k hk) (Nat.le_max_right _ _)
    · simp only [List.mem_singleton] at hk
      subst hk
      exact Nat.le_max_left _ _
  case maxMem => rw [hmax]; exact max_mem_append key st.m_max S h.maxMem
  case xfLen => rw [hxf, hmax, max_shiftRight_eq key st.m_max s hkple]; exact h.xfLen
  case firstB => rw [hfst, h.firstB]
  case chain => exact List.Chain'.imp (fun a b hab => by rw [hnext]; exact hab) h.chain
  case lastNone => intro pr hpr; rw [hnext]; exact h.lastNone pr hpr
  case pfxEq => intro pr hpr; rw [hpfx]; exact h.pfxEq pr hpr
  case elemsEq =>
    intro pr hpr e
    by_cases hprk : pr = (key >>> s, kid)
    · subst hprk
      show e ∈ (bAt st' kid).elems ↔ _
      rw [helems_kid, and_mask_eq_mod,
        hset (key % 2 ^ s) _ e (mod_lt_two_pow key s),
        h.elemsEq _ hmem e]
      constructor
      · rintro (rfl | ⟨k, hk, hkp, hke⟩)
        · exact ⟨key, by simp⟩
        · exact ⟨k, by simp [hk], hkp, hke⟩
      · rintro ⟨k, hk, hkp, hke⟩
        rcases List.mem_append.mp hk with hk | hk
        · exact Or.inr ⟨k, hk, hkp, hke⟩
        · simp only [List.mem_singleton] at hk
          subst hk
          exact Or.inl hke.symm
    · have hne : pr.2 ≠ kid := by
        intro hc
        exact hprk (snd_unique h.nodup pr (key >>> s, kid) hpr hmem hc)
      rw [helems_other pr.2 hne, h.elemsEq pr hpr e]
      have hpk : pr.1 ≠ key >>> s := by
        intro hc
        apply hprk
        rcases List.mem_append.mp (hXY ▸ hpr) with hx | hx
        · exact absurd (hX_lt pr hx) (by omega)
        · rcases List.mem_cons.mp hx with hx | hx
          · exact hx
          · exact absurd (hY_gt pr hx) (by omega)
      constructor
      · rintro ⟨k, hk, hkp, hke⟩
        exact ⟨k, by simp [hk], hkp, hke⟩
      · rintro ⟨k, hk, hkp, hke⟩
        rcases List.mem_append.mp hk with hk | hk
        · exact ⟨k, hk, hkp, hke⟩
        · simp only [List.mem_singleton] at hk
          subst hk
          exact absurd hkp.symm hpk
  case prevEq =>
    intro pr hpr
    rcases List.mem_append.mp (hXY ▸ hpr) with hx | hx
    · -- a bucket left of the key's bucket: nothing changes
      have hlt : pr.1 < key >>> s := hX_lt pr hx
      have hne : (bAt st kid).next_b ≠ some pr.2 := by
        intro hc
        rcases hY : Y with _ | ⟨q, Y'⟩
        · rw [hY] at hXY
          have hlast : L.getLast? = some (key >>> s, kid) := by
            rw [hXY]
            exact List.getLast?_concat X
          rw [h.lastNone _ hlast] at hc
          simp at hc
        · have hchain := h.chain
          rw [hXY, hY] at hchain
          have hrel : (bAt st kid).next_b = some q.2 :=
            (List.chain'_cons.mp (List.chain'_append.mp hchain).2.1).1
          rw [hrel] at hc
          have hq : q = pr := by
            apply snd_unique h.nodup q pr
            · rw [hXY, hY]; simp
            · exact hpr
            · simpa using hc
          subst hq
          exact absurd (hY_gt q (by rw [hY]; simp)) (by omega)
      rw [hprev_other pr.2 hne, h.prevEq pr hpr,
        filter_append_key_out S key s pr.1 (by omega)]
    · rcases List.mem_cons.mp hx with hx | hx
      · -- the key's own bucket: prefix unchanged, filter unchanged
        subst hx
        have hne : (bAt st kid).next_b ≠ some kid := by
          intro hc
          rcases hY : Y with _ | ⟨q, Y'⟩
          · rw [hY] at hXY
            have hlast : L.getLast? = some (key >>> s, kid) := by
              rw [hXY]
              exact List.getLast?_concat X
            rw [h.lastNone _ hlast] at hc
            simp at hc
          · have hchain := h.chain
            rw [hXY, hY] at hchain
            have hrel : (bAt st kid).next_b = some q.2 :=
              (List.chain'_cons.mp (List.chain'_append.mp hchain).2.1).1
            rw [hrel] at hc
            have hq : q = (key >>> s, kid) := by
              apply snd_unique h.nodup q (key >>> s, kid)
              · rw [hXY, hY]; simp
              · exact hmem
              · simpa using hc
            have := hY_gt q (by rw [hY]; simp)
            rw [hq] at this
            simp at this
        rw [hprev_other kid hne, h.prevEq _ hmem,
          filter_append_key_out S key s (key >>> s) (by omega)]
      · -- a bucket right of the key's bucket
        have hgt : key >>> s < pr.1 := hY_gt pr hx
        rcases hY : Y with _ | ⟨q, Y'⟩
        · rw [hY] at hx; simp at hx
        · rw [hY] at hx
          have hchain := h.chain
          rw [hXY, hY] at hchain
          have hrel : (bAt st kid).next_b = some q.2 :=
            (List.chain'_cons.mp (List.chain'_append.mp hchain).2.1).1
          have hqmem : q ∈ L := by rw [hXY, hY]; simp
          have hqgt : key >>> s < q.1 := hY_gt q (by rw [hY]; simp)
          rcases List.mem_cons.mp hx with hx2 | hx2
          · -- the successor bucket: prev_pred becomes max(key, old)
            subst hx2
            rw [hprev_nxt pr.2 hrel (h.bounded pr hqmem), h.prevEq pr hqmem,
              filter_append_key_in S key s pr.1 (by omega), maxOf_append, maxOf_singleton,
              Nat.max_comm]
          · -- buckets after the successor: dominated by the successor's bucket
            have hqlt : q.1 < pr.1 := by
              have hsY := (List.pairwise_append.mp hsorted).2.1
              have := (List.pairwise_cons.mp hsY).2
              rw [hY] at this
              exact (List.pairwise_cons.mp this).1 pr hx2
            have hne : (bAt st kid).next_b ≠ some pr.2 := by
              rw [hrel]
              intro hc
              have hq : q = pr := snd_unique h.nodup q pr hqmem hpr (by simpa using hc)
              rw [hq] at hqlt
              omega
            rw [hprev_other pr.2 hne, h.prevEq pr hpr,
              maxOf_dominated h key q.1 pr.1 ⟨q.2, by simpa using hqmem⟩ hqgt (by omega)]
  case xfEq =>
    intro p hp
    rw [hxf] at hp ⊢
    exact h.xfEq p hp

lemma invat_grow (s : Nat) (sset : Nat → List Nat → List Nat) (hset : SetOk s sset)
    (S : List Nat) (st : DynState) (L : List (Nat × Nat)) (h : InvAt s S st L)
    (key : Nat) (hge : st.m_xf.length ≤ key >>> s) :
    InvAt s (S ++ [key]) (insertGrow sset s st key) (L ++ [(key >>> s, st.heap.length)]) := by
  have hprl : L.getLast? = some (L.getLast h.lNe) := List.getLast?_eq_getLast_of_ne_nil h.lNe
  set prl := L.getLast h.lNe with hprl_def
  have hback := h.xf_back prl hprl
  have hxflen := h.xfLen
  have hmaxP_lt : st.m_max >>> s < key >>> s := by omega
  have hkey_gt : st.m_max < key := lt_of_shiftRight_lt _ _ _ hmaxP_lt
  have hprl_mem : prl ∈ L := mem_of_getLast?_eq _ _ hprl
  have hlid_lt : prl.2 < st.heap.length := h.bounded prl hprl_mem
  have hall_le_max : ∀ pr ∈ L, pr.1 ≤ st.m_max >>> s := fun pr hpr =>
    (h.mem_pfx_bounds pr hpr).2
  set st' := insertGrow sset s st key with hst'
  set nid := st.heap.length with hnid
  have hst'eq : st' = { st with
      m_min := min key st.m_min,
      m_max := max key st.m_max,
      heap := modifyAt (fun b => { b with next_b := some nid }) prl.2 st.heap ++
        [⟨key >>> s, st.m_max, none, sset (key &&& (2 ^ s - 1)) []⟩],
      m_xf := (st.m_xf ++ List.replicate (key >>> s + 1 - st.m_xf.length) (some prl.2)).set
        (key >>> s) (some nid) } := by
    rw [hst']
    unfold insertGrow insertTail
    dsimp only
    rw [hback]
    dsimp only
    rw [if_neg (by
      simp only [List.length_set, List.length_append, List.length_replicate]
      omega)]
  have hxf' : st'.m_xf = (st.m_xf ++ List.replicate (key >>> s + 1 - st.m_xf.length)
      (some prl.2)).set (key >>> s) (some nid) := by rw [hst'eq]
  have hxf'len : st'.m_xf.length = key >>> s + 1 := by
    rw [hxf']
    simp only [List.length_set, List.length_append, List.length_replicate]
    omega
  have hheap' : st'.heap = modifyAt (fun b => { b with next_b := some nid }) prl.2 st.heap ++
      [⟨key >>> s, st.m_max, none, sset (key &&& (2 ^ s - 1)) []⟩] := by rw [hst'eq]
  have hhlen' : st'.heap.length = st.heap.length + 1 := by
    rw [hheap']
    simp [length_modifyAt]
  -- bucket lookups in the new heap
  have hbat_new : bAt st' nid = ⟨key >>> s, st.m_max, none, sset (key &&& (2 ^ s - 1)) []⟩ := by
    unfold bAt
    rw [hheap', getD_append_right _ _ _ _ (by rw [length_modifyAt])]
    rw [length_modifyAt, Nat.sub_self]
    rfl
  have hbat_old : ∀ id, id < st.heap.length → id ≠ prl.2 → bAt st' id = bAt st id := by
    intro id hid hne
    unfold bAt
    rw [hheap', getD_append_left _ _ _ _ (by rw [length_modifyAt]; omega),
      getD_modifyAt_ne _ _ _ _ _ (fun hc => hne hc.symm)]
  have hbat_last : bAt st' prl.2 = { bAt st prl.2 with next_b := some nid } := by
    unfold bAt
    rw [hheap', getD_append_left _ _ _ _ (by rw [length_modifyAt]; omega),
      getD_modifyAt_eq _ _ _ _ hlid_lt]
  have hbat_keep : ∀ id, id < st.heap.length →
      (bAt st' id).pfx = (bAt st id).pfx ∧ (bAt st' id).elems = (bAt st id).elems ∧
      (bAt st' id).prev_pred = (bAt st id).prev_pred := by
    intro id hid
    by_cases hne : id = prl.2
    · subst hne
      rw [hbat_last]
      exact ⟨rfl, rfl, rfl⟩
    · rw [hbat_old id hid hne]
      exact ⟨rfl, rfl, rfl⟩
  constructor
  case lNe => simp
  case sorted =>
    rw [List.pairwise_append]
    refine ⟨h.sorted, by simp, ?_⟩
    intro a ha b hb
    simp only [List.mem_singleton] at hb
    subst hb
    have := hall_le_max a ha
    simp only
    omega
  case nodup =>
    rw [List.map_append, List.nodup_append]
    refine ⟨h.nodup, by simp, ?_⟩
    intro a ha hb
    simp only [List.map_cons, List.map_nil, List.mem_singleton] at hb
    obtain ⟨pr, hpr, hpr2⟩ := List.mem_map.mp ha
    have := h.bounded pr hpr
    omega
  case bounded =>
    intro pr hpr
    rw [hhlen']
    rcases List.mem_append.mp hpr with hpr | hpr
    · have := h.bounded pr hpr
      omega
    · simp only [List.mem_singleton] at hpr
      subst hpr
      simp
  case cover =>
    intro p
    constructor
    · rintro ⟨id, hid⟩
      rcases List.mem_append.mp hid with hid | hid
      · obtain ⟨k, hk, hkp⟩ := (h.cover p).mp ⟨id, hid⟩
        exact ⟨k, by simp [hk], hkp⟩
      · simp only [List.mem_singleton, Prod.mk.injEq] at hid
        exact ⟨key, by simp, hid.1.symm⟩
    · rintro ⟨k, hk, hkp⟩
      rcases List.mem_append.mp hk with hk | hk
      · obtain ⟨id, hid⟩ := (h.cover p).mpr ⟨k, hk, hkp⟩
        exact ⟨id, List.mem_append_left _ hid⟩
      · simp only [List.mem_singleton] at hk
        subst hk
        subst hkp
        exact ⟨nid, List.mem_append_right _ (by simp)⟩
  case size1 => rw [hst'eq]; exact h.size1
  case minLb =>
    intro k hk
    rw [hst'eq]
    show min key st.m_min ≤ k
    rcases List.mem_append.mp hk with hk | hk
    · exact le_trans (Nat.min_le_right _ _) (h.minLb k hk)
    · simp only [List.mem_singleton] at hk
      subst hk
      exact Nat.min_le_left _ _
  case minMem =>
    rw [hst'eq]
    show min key st.m_min ∈ S ++ [key]
    exact min_mem_append key st.m_min S h.minMem
  case maxUb =>
    intro k hk
    rw [hst'eq]
    show k ≤ max key st.m_max
    rcases List.mem_append.mp hk with hk | hk
    · exact le_trans (h.maxUb k hk) (Nat.le_max_right _ _)
    · simp only [List.mem_singleton] at hk
      subst hk
      exact Nat.le_max_left _ _
  case maxMem =>
    rw [hst'eq]
    show max key st.m_max ∈ S ++ [key]
    exact max_mem_append key st.m_max S h.maxMem
  case xfLen =>
    rw [hxf'len, hst'eq]
    show key >>> s + 1 = (max key st.m_max) >>> s + 1
    rw [shiftRight_max, Nat.max_eq_left (by omega)]
  case firstB =>
    have hfst' : st'.m_first_b = st.m_first_b := by rw [hst'eq]
    rw [hfst', h.firstB]
    cases hL : L with
    | nil => exact absurd hL h.lNe
    | cons a rest => simp
  case chain =>
    rw [List.chain'_append]
    refine ⟨?_, by simp, ?_⟩
    · apply List.Chain'.imp ?_ h.chain
      intro a b hab
      by_cases ha : a.2 = prl.2
      · have hcontr : (bAt st a.2).next_b = none := by
          rw [ha]
          exact h.lastNone prl hprl
        rw [hcontr] at hab
        simp at hab
      · by_cases halt : a.2 < st.heap.length
        · rw [hbat_old a.2 halt ha]
          exact hab
        · -- a dangling index: its default bucket has no successor, contradiction
          have hdef : (bAt st a.2).next_b = none := by
            unfold bAt
            rw [getD_length_le _ _ _ (by omega)]
            rfl
          rw [hdef] at hab
          simp at hab
    · intro x hx y hy
      simp only [List.head?_cons, Option.mem_def, Option.some.injEq] at hy
      subst hy
      have hx2 : x = prl := by
        rw [Option.mem_def, hprl] at hx
        exact (Option.some.inj hx).symm
      subst hx2
      rw [hbat_last]
  case lastNone =>
    intro pr hpr
    rw [List.getLast?_concat] at hpr
    have : pr = (key >>> s, nid) := (Option.some.inj hpr).symm
    subst this
    rw [hbat_new]
  case pfxEq =>
    intro pr hpr
    rcases List.mem_append.mp hpr with hpr | hpr
    · rw [(hbat_keep pr.2 (h.bounded pr hpr)).1]
      exact h.pfxEq pr hpr
    · simp only [List.mem_singleton] at hpr
      subst hpr
      rw [hbat_new]
  case elemsEq =>
    intro pr hpr e
    rcases List.mem_append.mp hpr with hpr | hpr
    · rw [(hbat_keep pr.2 (h.bounded pr hpr)).2.1, h.elemsEq pr hpr e]
      have hprle : pr.1 ≤ st.m_max >>> s := hall_le_max pr hpr
      constructor
      · rintro ⟨k, hk, hkp, hke⟩
        exact ⟨k, by simp [hk], hkp, hke⟩
      · rintro ⟨k, hk, hkp, hke⟩
        rcases List.mem_append.mp hk with hk | hk
        · exact ⟨k, hk, hkp, hke⟩
        · simp only [List.mem_singleton] at hk
          subst hk
          omega
    · simp only [List.mem_singleton] at hpr
      subst hpr
      rw [hbat_new]
      show e ∈ sset (key &&& (2 ^ s - 1)) [] ↔ _
      rw [and_mask_eq_mod, hset (key % 2 ^ s) [] e (mod_lt_two_pow key s)]
      constructor
      · rintro (rfl | he)
        · exact ⟨key, by simp⟩
        · simp at he
      · rintro ⟨k, hk, hkp, hke⟩
        rcases List.mem_append.mp hk with hk | hk
        · have h1 : k >>> s ≤ st.m_max >>> s := shiftRight_mono _ _ s (h.maxUb k hk)
          simp only at hkp
          omega
        · simp only [List.mem_singleton] at hk
          subst hk
          exact Or.inl hke.symm
  case prevEq =>
    intro pr hpr
    rcases List.mem_append.mp hpr with hpr | hpr
    · rw [(hbat_keep pr.2 (h.bounded pr hpr)).2.2, h.prevEq pr hpr,
        filter_append_key_out S key s pr.1 (by have := hall_le_max pr hpr; omega)]
    · simp only [List.mem_singleton] at hpr
      subst hpr
      rw [hbat_new]
      show st.m_max = maxOf ((S ++ [key]).filter fun k => k >>> s < (key >>> s, nid).1)
      have hfS : S.filter (fun k => k >>> s < (key >>> s, nid).1) = S := by
        apply List.filter_eq_self.mpr
        intro a ha
        have := shiftRight_mono _ _ s (h.maxUb a ha)
        simp only [decide_eq_true_eq]
        omega
      rw [filter_append_key_out _ _ _ _ (by simp), hfS]
      exact (maxOf_eq_of_mem S st.m_max h.maxMem h.maxUb).symm
  case xfEq =>
    intro p hp
    rw [hxf'len] at hp
    rw [hxf']
    by_cases hpk : p = key >>> s
    · subst hpk
      rw [getD_set_eq _ _ _ _ (by
        simp only [List.length_append, List.length_replicate]
        omega)]
      rw [stepFun_append_single_ge L _ _ _ (fun pr hpr => by
        have := hall_le_max pr hpr
        omega) (le_refl _)]
    · rw [getD_set_ne _ _ _ _ _ (fun hc => hpk hc.symm),
        stepFun_append_single_lt L _ _ _ (by omega)]
      by_cases hplen : p < st.m_xf.length
      · rw [getD_append_left _ _ _ _ hplen]
        exact h.xfEq p hplen
      · rw [getD_append_right _ _ _ _ (by omega),
          getD_replicate _ _ _ _ (by omega)]
        rw [stepFun_all_le L p prl (fun pr hpr => by
          have := hall_le_max pr hpr
          omega) hprl]

lemma getD_take {α : Type} (l : List α) (n p : Nat) (d : α) (h : p < n) :
    (l.take n).getD p d = l.getD p d := by
  simp [List.getD, List.getElem?_take, h]

lemma getD_drop {α : Type} (l : List α) (n j : Nat) (d : α) :
    (l.drop n).getD j d = l.getD (n + j) d := by
  simp [List.getD, List.getElem?_drop]

lemma stepFun_head_exact (h0 : Nat × Nat) (rest : List (Nat × Nat))
    (hs : (h0 :: rest).Pairwise (fun a b => a.1 < b.1)) :
    stepFun (h0 :: rest) h0.1 = some h0.2 := by
  obtain ⟨p, id⟩ := h0
  simp only [stepFun, lt_self_iff_false, if_false]
  rw [stepFun_eq_none_of_lt rest p (fun pr hpr => (List.pairwise_cons.mp hs).1 pr hpr)]
  rfl

lemma invat_front (s : Nat) (sset : Nat → List Nat → List Nat) (hset : SetOk s sset)
    (S : List Nat) (st : DynState) (L : List (Nat × Nat)) (h : InvAt s S st L)
    (key : Nat) (hlt : key >>> s < st.m_min >>> s) :
    InvAt s (S ++ [key]) (insertFront sset s st key) ((key >>> s, st.heap.length) :: L) := by
  have hh0 : L.head? = some (L.head h.lNe) := List.head?_eq_head h.lNe
  set h0 := L.head h.lNe with hh0_def
  have hh0_mem : h0 ∈ L := List.mem_of_mem_head? hh0
  have hminP : h0.1 = st.m_min >>> s := h.head_pfx h0 hh0
  have hfst : st.m_first_b = some h0.2 := by rw [h.firstB, hh0]; rfl
  have hxflen := h.xfLen
  have hminP_le : st.m_min >>> s ≤ st.m_max >>> s :=
    shiftRight_mono _ _ s (le_trans (h.minLb _ h.minMem) (h.maxUb _ h.minMem))
  have hkp_lt_len : key >>> s < st.m_xf.length := by omega
  have hkey_lt : key < st.m_min := lt_of_shiftRight_lt _ _ _ hlt
  have hh0_lt : h0.2 < st.heap.length := h.bounded h0 hh0_mem
  have hmin_pos : ∀ pr ∈ L, st.m_min >>> s ≤ pr.1 := fun pr hpr =>
    (h.mem_pfx_bounds pr hpr).1
  set st' := insertFront sset s st key with hst'
  set nid := st.heap.length with hnid
  set heap1 := modifyAt (fun b => { b with prev_pred := key }) h0.2 st.heap with hheap1
  set new_b : Bucket := ⟨key >>> s, 0, some h0.2, sset (key &&& (2 ^ s - 1)) []⟩ with hnew
  set st1 : DynState :=
    { st with m_first_b := some nid, heap := heap1 ++ [new_b] } with hst1
  have hst1xf : st1.m_xf = st.m_xf := rfl
  have hst'tail : st' = insertTail st1 key (key >>> s) nid := by
    rw [hst']
    unfold insertFront
    dsimp only
    rw [hfst]
  have hheap' : st'.heap = heap1 ++ [new_b] := by rw [hst'tail]; rfl
  have hhlen' : st'.heap.length = st.heap.length + 1 := by
    rw [hheap', hheap1]
    simp [length_modifyAt]
  have hfst' : st'.m_first_b = some nid := by rw [hst'tail]; rfl
  have hsize' : st'.m_size = st.m_size := by rw [hst'tail]; rfl
  have hmin' : st'.m_min = min key st.m_min := by rw [hst'tail]; rfl
  have hmax' : st'.m_max = max key st.m_max := by rw [hst'tail]; rfl
  -- bucket lookups in the new heap
  have hbat_new : bAt st' nid = new_b := by
    unfold bAt
    rw [hheap', getD_append_right _ _ _ _ (by rw [hheap1, length_modifyAt])]
    rw [hheap1, length_modifyAt, Nat.sub_self]
    rfl
  have hbat_old : ∀ id, id ≠ h0.2 → id < st.heap.length → bAt st' id = bAt st id := by
    intro id hne hid
    unfold bAt
    rw [hheap', getD_append_left _ _ _ _ (by rw [hheap1, length_modifyAt]; omega),
      hheap1, getD_modifyAt_ne _ _ _ _ _ (fun hc => hne hc.symm)]
  have hbat_h0 : bAt st' h0.2 = { bAt st h0.2 with prev_pred := key } := by
    unfold bAt
    rw [hheap', getD_append_left _ _ _ _ (by rw [hheap1, length_modifyAt]; omega),
      hheap1, getD_modifyAt_eq _ _ _ _ hh0_lt]
  have hbat_keep : ∀ id, id < st.heap.length →
      (bAt st' id).pfx = (bAt st id).pfx ∧ (bAt st' id).elems = (bAt st id).elems ∧
      (bAt st' id).next_b = (bAt st id).next_b := by
    intro id hid
    by_cases hne : id = h0.2
    · subst hne
      rw [hbat_h0]
      exact ⟨rfl, rfl, rfl⟩
    · rw [hbat_old id hne hid]
      exact ⟨rfl, rfl, rfl⟩
  -- the top array after the tail
  have hxf1get : ∀ p, (st1.m_xf.set (key >>> s) (some nid)).getD p none =
      (if p = key >>> s then some nid else st.m_xf.getD p none) := by
    intro p
    rw [hst1xf]
    by_cases hpk : p = key >>> s
    · subst hpk
      rw [getD_set_eq _ _ _ _ hkp_lt_len, if_pos rfl]
    · rw [getD_set_ne _ _ _ _ _ (fun hc => hpk hc.symm), if_neg hpk]
  have hstep_lt : ∀ p, p < st.m_min >>> s → stepFun L p = none := by
    intro p hp
    exact stepFun_eq_none_of_lt L p (fun pr hpr => by have := hmin_pos pr hpr; omega)
  have hstep_ge : ∀ p, st.m_min >>> s ≤ p → ∃ r, stepFun L p = some r := by
    intro p hp
    cases hL : L with
    | nil => exact absurd hL h.lNe
    | cons a rest =>
      have ha : a.1 = st.m_min >>> s := by
        have : L.head? = some a := by rw [hL]; rfl
        exact h.head_pfx a this
      obtain ⟨pa, ida⟩ := a
      exact stepFun_isSome_of_head pa ida p rest (by simp only at ha; omega)
  have hxflen' : st'.m_xf.length = st.m_xf.length := by
    rw [hst'tail]
    unfold insertTail
    dsimp only
    split
    · split
      · simp only [List.length_append, List.length_take, List.length_set, length_fillFrom,
          List.length_drop]
        omega
      · split
        · simp only [List.length_append, List.length_take, List.length_set, length_fillFrom,
            List.length_drop]
          omega
        · simp [List.length_set]
    · simp [List.length_set]
  have hxfget : ∀ p, p < st.m_xf.length →
      st'.m_xf.getD p none = stepFun ((key >>> s, nid) :: L) p := by
    intro p hp
    have hgoal_step : stepFun ((key >>> s, nid) :: L) p =
        if p < key >>> s then none else some ((stepFun L p).getD nid) := rfl
    have hcond : key >>> s + 1 < (st1.m_xf.set (key >>> s) (some nid)).length := by
      rw [List.length_set, hst1xf]
      omega
    have htgt : (st1.m_xf.set (key >>> s) (some nid)).getD (key >>> s + 1) none =
        stepFun L (key >>> s + 1) := by
      rw [hxf1get, if_neg (by omega)]
      exact h.xfEq _ (by omega)
    have hxf'val : st'.m_xf = (if stepFun L (key >>> s + 1) = none then
        (st1.m_xf.set (key >>> s) (some nid)).take (key >>> s + 1) ++
          fillFrom (stepFun L (key >>> s + 1)) nid
            ((st1.m_xf.set (key >>> s) (some nid)).drop (key >>> s + 1))
      else st1.m_xf.set (key >>> s) (some nid)) := by
      rw [hst'tail]
      unfold insertTail
      dsimp only
      rw [if_pos hcond]
      cases hLp1 : stepFun L (key >>> s + 1) with
      | none =>
        rw [htgt, hLp1]
        simp
      | some r =>
        rw [htgt, hLp1]
        dsimp only
        have hr : ∃ pq, (pq, r) ∈ L ∧ pq ≤ key >>> s + 1 ∧
            ∀ pr ∈ L, pr.1 ≤ key >>> s + 1 → pr.1 ≤ pq :=
          stepFun_spec L _ h.sorted r hLp1
        obtain ⟨pq, hpqmem, hpqle, _⟩ := hr
        have hpq_ge : st.m_min >>> s ≤ pq := hmin_pos _ hpqmem
        have hpq_pfx : (bAt st1 r).pfx = pq := by
          have hbr : r < st.heap.length := h.bounded _ hpqmem
          have hre : (bAt st1 r).pfx = (bAt st r).pfx := by
            unfold bAt
            show ((heap1 ++ [new_b]).getD r default).pfx = (st.heap.getD r default).pfx
            rw [getD_append_left _ _ _ _ (by rw [hheap1, length_modifyAt]; omega), hheap1]
            by_cases hrh : r = h0.2
            · subst hrh
              rw [getD_modifyAt_eq _ _ _ _ hh0_lt]
            · rw [getD_modifyAt_ne _ _ _ _ _ (fun hc => hrh hc.symm)]
          rw [hre]
          exact h.pfxEq _ hpqmem
        rw [if_neg (by
          show ¬ (bAt st1 r).pfx < key >>> s
          rw [hpq_pfx]
          omega)]
        simp
    rw [hxf'val, hgoal_step]
    by_cases hplt : p < key >>> s
    · rw [if_pos hplt]
      cases hLp1 : stepFun L (key >>> s + 1) with
      | none =>
        rw [if_pos rfl, getD_append_left _ _ _ _
          (by rw [List.length_take, List.length_set, hst1xf]; omega)]
        rw [getD_take _ _ _ _ (by omega), hxf1get, if_neg (by omega), h.xfEq p hp]
        exact hstep_lt p (by omega)
      | some r =>
        rw [if_neg (by simp), hxf1get, if_neg (by omega), h.xfEq p hp]
        exact hstep_lt p (by omega)
    · rw [if_neg hplt]
      by_cases hpk : p = key >>> s
      · subst hpk
        cases hLp1 : stepFun L (key >>> s + 1) with
        | none =>
          rw [if_pos rfl, getD_append_left _ _ _ _
            (by rw [List.length_take, List.length_set, hst1xf]; omega)]
          rw [getD_take _ _ _ _ (by omega), hxf1get, if_pos rfl,
            hstep_lt _ (by omega)]
          rfl
        | some r =>
          rw [if_neg (by simp), hxf1get, if_pos rfl, hstep_lt _ (by omega)]
          rfl
      · -- p > key >>> s
        have hpgt : key >>> s < p := by omega
        cases hLp1 : stepFun L (key >>> s + 1) with
        | none =>
          -- the entry after the new bucket was null: the fill loop ran
          have hp1_lt : key >>> s + 1 < st.m_min >>> s := by
            by_contra hc
            obtain ⟨r, hr⟩ := hstep_ge (key >>> s + 1) (by omega)
            rw [hr] at hLp1
            simp at hLp1
          rw [if_pos rfl, getD_append_right _ _ _ _
            (by rw [List.length_take, List.length_set, hst1xf]; omega)]
          have hlen_take : ((st1.m_xf.set (key >>> s) (some nid)).take (key >>> s + 1)).length =
              key >>> s + 1 := by
            rw [List.length_take, List.length_set, hst1xf]
            omega
          rw [hlen_take, getD_fillFrom]
          have hdropget : ∀ j, ((st1.m_xf.set (key >>> s) (some nid)).drop
              (key >>> s + 1)).getD j none = stepFun L (key >>> s + 1 + j) ∨
              (st.m_xf.length ≤ key >>> s + 1 + j) := by
            intro j
            by_cases hj : key >>> s + 1 + j < st.m_xf.length
            · left
              rw [getD_drop, hxf1get, if_neg (by omega)]
              exact h.xfEq _ hj
            · right
              omega
          by_cases hpm : p < st.m_min >>> s
          · -- inside the null gap: filled with the new bucket
            rw [if_pos ?filled]
            case filled =>
              intro j' hj1 hj2
              rw [getD_drop, hxf1get, if_neg (by omega), h.xfEq _ (by
                rw [List.length_drop, List.length_set, hst1xf] at hj2
                omega)]
              exact hstep_lt _ (by omega)
            rw [if_pos (by
              rw [List.length_drop, List.length_set, hst1xf]
              omega)]
            rw [hstep_lt p hpm]
            rfl
          · -- beyond the gap: the fill loop stopped before this entry
            rw [if_neg ?stopped]
            case stopped =>
              intro hall
              have hj' := hall (st.m_min >>> s - (key >>> s + 1)) (by omega) (by
                rw [List.length_drop, List.length_set, hst1xf]
                omega)
              rw [getD_drop, hxf1get, if_neg (by omega)] at hj'
              have harith : key >>> s + 1 + (st.m_min >>> s - (key >>> s + 1)) =
                  st.m_min >>> s := by omega
              rw [harith, h.xfEq _ (by omega)] at hj'
              obtain ⟨r, hr⟩ := hstep_ge (st.m_min >>> s) (le_refl _)
              rw [hr] at hj'
              simp at hj'
            rw [getD_drop]
            have harith : key >>> s + 1 + (p - (key >>> s + 1)) = p := by omega
            rw [harith, hxf1get, if_neg (by omega), h.xfEq p hp]
            obtain ⟨r, hr⟩ := hstep_ge p (by omega)
            rw [hr]
            rfl
        | some r =>
          -- the entry after the new bucket was a real bucket: no fill
          have hp1_ge : st.m_min >>> s ≤ key >>> s + 1 := by
            by_contra hc
            rw [hstep_lt _ (by omega)] at hLp1
            simp at hLp1
          rw [if_neg (by simp), hxf1get, if_neg (by omega), h.xfEq p hp]
          obtain ⟨r2, hr2⟩ := hstep_ge p (by omega)
          rw [hr2]
          rfl
  constructor
  case lNe => simp
  case sorted =>
    rw [List.pairwise_cons]
    refine ⟨fun pr hpr => ?_, h.sorted⟩
    have := hmin_pos pr hpr
    simp only
    omega
  case nodup =>
    simp only [List.map_cons, List.nodup_cons]
    refine ⟨fun hc => ?_, h.nodup⟩
    obtain ⟨pr, hpr, hpr2⟩ := List.mem_map.mp hc
    have := h.bounded pr hpr
    omega
  case bounded =>
    intro pr hpr
    rw [hhlen']
    rcases List.mem_cons.mp hpr with hpr | hpr
    · subst hpr
      simp
    · have := h.bounded pr hpr
      omega
  case cover =>
    intro p
    constructor
    · rintro ⟨id, hid⟩
      rcases List.mem_cons.mp hid with hid | hid
      · simp only [Prod.mk.injEq] at hid
        exact ⟨key, by simp, hid.1.symm⟩
      · obtain ⟨k, hk, hkp⟩ := (h.cover p).mp ⟨id, hid⟩
        exact ⟨k, by simp [hk], hkp⟩
    · rintro ⟨k, hk, hkp⟩
      rcases List.mem_append.mp hk with hk | hk
      · obtain ⟨id, hid⟩ := (h.cover p).mpr ⟨k, hk, hkp⟩
        exact ⟨id, List.mem_cons_of_mem _ hid⟩
      · simp only [List.mem_singleton] at hk
        subst hk
        subst hkp
        exact ⟨nid, by simp⟩
  case size1 => rw [hsize']; exact h.size1
  case minLb =>
    intro k hk
    rw [hmin']
    rcases List.mem_append.mp hk with hk | hk
    · exact le_trans (Nat.min_le_right _ _) (h.minLb k hk)
    · simp only [List.mem_singleton] at hk
      subst hk
      exact Nat.min_le_left _ _
  case minMem => rw [hmin']; exact min_mem_append key st.m_min S h.minMem
  case maxUb =>
    intro k hk
    rw [hmax']
    rcases List.mem_append.mp hk with hk | hk
    · exact le_trans (h.maxUb k hk) (Nat.le_max_right _ _)
    · simp only [List.mem_singleton] at hk
      subst hk
      exact Nat.le_max_left _ _
  case maxMem => rw [hmax']; exact max_mem_append key st.m_max S h.maxMem
  case xfLen =>
    rw [hxflen', hmax', max_shiftRight_eq key st.m_max s (by omega)]
    exact h.xfLen
  case firstB => rw [hfst']; rfl
  case chain =>
    rw [List.chain'_cons']
    constructor
    · intro b hb
      rw [Option.mem_def, hh0] at hb
      have : b = h0 := (Option.some.inj hb).symm
      subst this
      rw [hbat_new]
    · apply List.Chain'.imp ?_ h.chain
      intro a b hab
      by_cases halt : a.2 < st.heap.length
      · rw [(hbat_keep a.2 halt).2.2]
        exact hab
      · have hdef : (bAt st a.2).next_b = none := by
          unfold bAt
          rw [getD_length_le _ _ _ (by omega)]
          rfl
        rw [hdef] at hab
        simp at hab
  case lastNone =>
    intro pr hpr
    have hpr2 : L.getLast? = some pr := by
      cases hL : L with
      | nil => exact absurd hL h.lNe
      | cons a rest =>
        rw [hL] at hpr
        rwa [List.getLast?_cons_cons] at hpr
    have hprmem : pr ∈ L := mem_of_getLast?_eq _ _ hpr2
    have hprlt : pr.2 < st.heap.length := h.bounded pr hprmem
    by_cases hne : pr.2 = h0.2
    · rw [hne, hbat_h0]
      show (bAt st h0.2).next_b = none
      have hln := h.lastNone pr hpr2
      rw [hne] at hln
      exact hln
    · rw [hbat_old pr.2 hne hprlt]
      exact h.lastNone pr hpr2
  case pfxEq =>
    intro pr hpr
    rcases List.mem_cons.mp hpr with hpr | hpr
    · subst hpr
      rw [hbat_new]
    · rw [(hbat_keep pr.2 (h.bounded pr hpr)).1]
      exact h.pfxEq pr hpr
  case elemsEq =>
    intro pr hpr e
    rcases List.mem_cons.mp hpr with hpr | hpr
    · subst hpr
      rw [hbat_new]
      show e ∈ sset (key &&& (2 ^ s - 1)) [] ↔ _
      rw [and_mask_eq_mod, hset (key % 2 ^ s) [] e (mod_lt_two_pow key s)]
      constructor
      · rintro (rfl | he)
        · exact ⟨key, by simp⟩
        · simp at he
      · rintro ⟨k, hk, hkp, hke⟩
        rcases List.mem_append.mp hk with hk | hk
        · have h1 : st.m_min >>> s ≤ k >>> s := shiftRight_mono _ _ s (h.minLb k hk)
          simp only at hkp
          omega
        · simp only [List.mem_singleton] at hk
          subst hk
          exact Or.inl hke.symm
    · rw [(hbat_keep pr.2 (h.bounded pr hpr)).2.1, h.elemsEq pr hpr e]
      have hprge : st.m_min >>> s ≤ pr.1 := hmin_pos pr hpr
      constructor
      · rintro ⟨k, hk, hkp, hke⟩
        exact ⟨k, by simp [hk], hkp, hke⟩
      · rintro ⟨k, hk, hkp, hke⟩
        rcases List.mem_append.mp hk with hk | hk
        · exact ⟨k, hk, hkp, hke⟩
        · simp only [List.mem_singleton] at hk
          subst hk
          omega
  case prevEq =>
    intro pr hpr
    have hfS_empty : ∀ r, r ≤ st.m_min >>> s →
        S.filter (fun k => k >>> s < r) = [] := by
      intro r hr
      rw [List.filter_eq_nil_iff]
      intro k hk
      have := shiftRight_mono _ _ s (h.minLb k hk)
      simp only [decide_eq_true_eq]
      omega
    rcases List.mem_cons.mp hpr with hpr | hpr
    · subst hpr
      rw [hbat_new]
      show (0 : Nat) = _
      rw [filter_append_key_out _ _ _ _ (by simp), hfS_empty _ (by simp only; omega)]
      rfl
    · by_cases hne : pr = h0
      · subst hne
        rw [hbat_h0]
        show key = _
        rw [hminP, filter_append_key_in _ _ _ _ (by omega), hfS_empty _ (le_refl _)]
        simp [maxOf_singleton]
      · have hprgt : h0.1 < pr.1 := by
          have hh := h.sorted
          cases hL : L with
          | nil => exact absurd hL h.lNe
          | cons a rest =>
            have ha : a = h0 := by
              rw [hL] at hh0
              exact Option.some.inj hh0
            rw [hL] at hpr hh
            rcases List.mem_cons.mp hpr with hx | hx
            · rw [ha] at hx
              exact absurd hx hne
            · rw [← ha]
              exact (List.pairwise_cons.mp hh).1 pr hx
        have hne2 : pr.2 ≠ h0.2 := by
          intro hc
          exact hne (snd_unique h.nodup pr h0 hpr hh0_mem hc)
        rw [hbat_old pr.2 hne2 (h.bounded pr hpr), h.prevEq pr hpr]
        rw [maxOf_dominated h key h0.1 pr.1 ⟨h0.2, by simpa using hh0_mem⟩
          (by omega) hprgt]
  case xfEq =>
    intro p hp
    rw [hxflen'] at hp
    exact hxfget p hp

lemma chain'_imp_mem {α : Type} (R R' : α → α → Prop) : ∀ (l : List α),
    (∀ a ∈ l, ∀ b ∈ l, R a b → R' a b) → List.Chain' R l → List.Chain' R' l := by
  intro l
  induction l with
  | nil => intro _ _; simp
  | cons a t ih =>
    intro himp hc
    cases t with
    | nil => simp
    | cons b t2 =>
      rw [List.chain'_cons] at hc ⊢
      refine ⟨himp a (by simp) b (by simp) hc.1, ?_⟩
      exact ih (fun x hx y hy => himp x (by simp [hx]) y (by simp [hy])) hc.2

lemma nodup_snd_split (X Y : List (Nat × Nat)) (pr : Nat × Nat)
    (hn : (((X ++ pr :: Y)).map Prod.snd).Nodup) :
    (∀ a ∈ X, a.2 ≠ pr.2) ∧ (∀ a ∈ Y, a.2 ≠ pr.2) := by
  rw [List.map_append, List.map_cons, List.nodup_append] at hn
  obtain ⟨_, hcons, hdisj⟩ := hn
  constructor
  · intro a ha hc
    exact hdisj (List.mem_map_of_mem _ ha) (by simp [hc])
  · intro a ha hc
    rw [List.nodup_cons] at hcons
    exact hcons.1 (hc ▸ List.mem_map_of_mem _ ha)

lemma stepFun_self (L : List (Nat × Nat)) (hs : L.Pairwise (fun a b => a.1 < b.1))
    (p id : Nat) (hmem : (p, id) ∈ L) : stepFun L p = some id := by
  obtain ⟨A, B, hAB⟩ := List.append_of_mem hmem
  subst hAB
  rw [List.pairwise_append] at hs
  exact stepFun_insert_hit A B p id p
    (fun pr hpr => le_of_lt (by simpa using hs.2.2 pr hpr (p, id) (by simp)))
    (le_refl p)
    (fun pr hpr => by
      have := (List.pairwise_cons.mp hs.2.1).1 pr hpr
      simpa using this)

lemma invat_gap (s : Nat) (sset : Nat → List Nat → List Nat) (hset : SetOk s sset)
    (S : List Nat) (st : DynState) (L : List (Nat × Nat)) (h : InvAt s S st L)
    (key kid : Nat) (hkp_len : key >>> s < st.m_xf.length)
    (hge : ¬ key >>> s < st.m_min >>> s)
    (hxf : st.m_xf.getD (key >>> s) none = some kid)
    (hpfx_ne : (st.heap.getD kid default).pfx ≠ key >>> s) :
    ∃ L', InvAt s (S ++ [key]) (insertGap sset s st key kid) L' := by
  have hstep : stepFun L (key >>> s) = some kid := by rw [← h.xfEq _ hkp_len, hxf]
  obtain ⟨p0, hp0mem, hp0le, hp0max⟩ := stepFun_spec L _ h.sorted kid hstep
  have hkid_lt : kid < st.heap.length := h.bounded _ hp0mem
  have hp0pfx : (bAt st kid).pfx = p0 := h.pfxEq _ hp0mem
  have hp0_lt : p0 < key >>> s := by
    have : (st.heap.getD kid default).pfx = p0 := hp0pfx
    omega
  obtain ⟨X, Y, hXY⟩ := List.append_of_mem hp0mem
  have hxflen := h.xfLen
  have hkp_le_max : key >>> s ≤ st.m_max >>> s := by omega
  -- Y is nonempty: the bucket at p0 cannot be the last one
  have hYne : Y ≠ [] := by
    intro hc
    subst hc
    have hlast : L.getLast? = some (p0, kid) := by
      rw [hXY]
      exact List.getLast?_concat X
    have := h.last_pfx _ hlast
    simp only at this
    omega
  obtain ⟨q, Y', hY⟩ : ∃ q Y', Y = q :: Y' := by
    cases Y with
    | nil => exact absurd rfl hYne
    | cons q Y' => exact ⟨q, Y', rfl⟩
  subst hY
  have hsorted := h.sorted
  rw [hXY] at hsorted
  rw [List.pairwise_append] at hsorted
  have hX_lt_p0 : ∀ x ∈ X, x.1 < p0 := fun x hx => by
    simpa using hsorted.2.2 x hx (p0, kid) (by simp)
  have hp0_lt_rest : ∀ y ∈ (q :: Y'), p0 < y.1 := fun y hy =>
    (List.pairwise_cons.mp hsorted.2.1).1 y hy
  have hq_mem : q ∈ L := by rw [hXY]; simp
  have hq_gt_kp : key >>> s < q.1 := by
    rcases Nat.lt_or_ge (key >>> s) q.1 with hlt | hle
    · exact hlt
    · have := hp0max q hq_mem (by omega)
      have := hp0_lt_rest q (by simp)
      omega
  have hY'_gt : ∀ y ∈ Y', q.1 < y.1 := fun y hy =>
    (List.pairwise_cons.mp (List.pairwise_cons.mp hsorted.2.1).2).1 y hy
  have hq_le_max : q.1 ≤ st.m_max >>> s := (h.mem_pfx_bounds q hq_mem).2
  have hq_lt : q.2 < st.heap.length := h.bounded q hq_mem
  have hq_pfx : (bAt st q.2).pfx = q.1 := h.pfxEq q hq_mem
  -- the chain gives the successor pointer
  have hrel : (bAt st kid).next_b = some q.2 := by
    have hchain := h.chain
    rw [hXY] at hchain
    exact (List.chain'_cons.mp (List.chain'_append.mp hchain).2.1).1
  -- distinctness of the touched heap cells
  have hkidq : kid ≠ q.2 := by
    intro hc
    have heq : (p0, kid) = q := snd_unique h.nodup _ q hp0mem hq_mem (by simpa using hc)
    have h2 := hp0_lt_rest q (by simp)
    rw [← heq] at h2
    exact absurd h2 (lt_irrefl p0)
  have hsnd_mid := nodup_snd_split X ((q :: Y')) (p0, kid) (by rw [← hXY]; exact h.nodup)
  -- key has no bucket yet: no stored key has prefix key >>> s
  have hkp_not_in : ∀ k ∈ S, k >>> s ≠ key >>> s := by
    intro k hk hc
    obtain ⟨id, hid⟩ := (h.cover (key >>> s)).mpr ⟨k, hk, hc⟩
    have := hp0max _ hid (le_refl _)
    omega
  -- every listed prefix avoids the open interval (p0, q.1)
  have hno_between : ∀ pr ∈ L, pr.1 ≤ p0 ∨ q.1 ≤ pr.1 := by
    intro pr hpr
    rw [hXY] at hpr
    rcases List.mem_append.mp hpr with hx | hx
    · exact Or.inl (le_of_lt (hX_lt_p0 pr hx))
    · rcases List.mem_cons.mp hx with hx | hx
      · subst hx
        exact Or.inl (le_refl _)
      · rcases List.mem_cons.mp hx with hx | hx
        · subst hx
          exact Or.inr (le_refl _)
        · exact Or.inr (le_of_lt (hY'_gt pr hx))
  set st' := insertGap sset s st key kid with hst'
  set nid := st.heap.length with hnid
  set pp := (st.heap.getD q.2 default).prev_pred with hpp
  set new_b : Bucket := ⟨key >>> s, pp, some q.2, sset (key &&& (2 ^ s - 1)) []⟩ with hnew
  set heap2 := modifyAt (fun b => { b with prev_pred := key }) q.2
    (modifyAt (fun b => { b with next_b := some nid }) kid st.heap) with hheap2
  set st1 : DynState := { st with heap := heap2 ++ [new_b] } with hst1
  have hst1xf : st1.m_xf = st.m_xf := rfl
  have hst'tail : st' = insertTail st1 key (key >>> s) nid := by
    rw [hst']
    unfold insertGap
    dsimp only
    rw [show (st.heap.getD kid default).next_b = some q.2 from hrel]
  have hheap' : st'.heap = heap2 ++ [new_b] := by rw [hst'tail]; rfl
  have hhlen' : st'.heap.length = st.heap.length + 1 := by
    rw [hheap', hheap2]
    simp [length_modifyAt]
  have hfst' : st'.m_first_b = st.m_first_b := by rw [hst'tail]; rfl
  have hsize' : st'.m_size = st.m_size := by rw [hst'tail]; rfl
  have hmin' : st'.m_min = min key st.m_min := by rw [hst'tail]; rfl
  have hmax' : st'.m_max = max key st.m_max := by rw [hst'tail]; rfl
  -- bucket lookups in the new heap
  have hbat_new : bAt st' nid = new_b := by
    unfold bAt
    rw [hheap', getD_append_right _ _ _ _ (by rw [hheap2, length_modifyAt, length_modifyAt]),
      hheap2, length_modifyAt, length_modifyAt, Nat.sub_self]
    rfl
  have hbat_kid : bAt st' kid = { bAt st kid with next_b := some nid } := by
    unfold bAt
    rw [hheap', getD_append_left _ _ _ _
      (by rw [hheap2, length_modifyAt, length_modifyAt]; omega), hheap2,
      getD_modifyAt_ne _ _ _ _ _ (fun hc => hkidq hc.symm),
      getD_modifyAt_eq _ _ _ _ hkid_lt]
  have hbat_q : bAt st' q.2 = { bAt st q.2 with prev_pred := key } := by
    unfold bAt
    rw [hheap', getD_append_left _ _ _ _
      (by rw [hheap2, length_modifyAt, length_modifyAt]; omega), hheap2,
      getD_modifyAt_eq _ _ _ _ (by rw [length_modifyAt]; omega),
      getD_modifyAt_ne _ _ _ _ _ hkidq]
  have hbat_old : ∀ id, id ≠ kid → id ≠ q.2 → id < st.heap.length → bAt st' id = bAt st id := by
    intro id h1 h2 hid
    unfold bAt
    rw [hheap', getD_append_left _ _ _ _
      (by rw [hheap2, length_modifyAt, length_modifyAt]; omega), hheap2,
      getD_modifyAt_ne _ _ _ _ _ (fun hc => h2 hc.symm),
      getD_modifyAt_ne _ _ _ _ _ (fun hc => h1 hc.symm)]
  have hbat_keep : ∀ id, id < st.heap.length →
      (bAt st' id).pfx = (bAt st id).pfx ∧ (bAt st' id).elems = (bAt st id).elems := by
    intro id hid
    by_cases h1 : id = kid
    · subst h1
      rw [hbat_kid]
      exact ⟨rfl, rfl⟩
    · by_cases h2 : id = q.2
      · subst h2
        rw [hbat_q]
        exact ⟨rfl, rfl⟩
      · rw [hbat_old id h1 h2 hid]
        exact ⟨rfl, rfl⟩
  have hbat_next_keep : ∀ id, id ≠ kid → id < st.heap.length →
      (bAt st' id).next_b = (bAt st id).next_b := by
    intro id h1 hid
    by_cases h2 : id = q.2
    · subst h2
      rw [hbat_q]
    · rw [hbat_old id h1 h2 hid]
  have hbat_prev_keep : ∀ id, id ≠ q.2 → id < st.heap.length →
      (bAt st' id).prev_pred = (bAt st id).prev_pred := by
    intro id h2 hid
    by_cases h1 : id = kid
    · subst h1
      rw [hbat_kid]
    · rw [hbat_old id h1 h2 hid]
  -- stepFun facts
  have hstep_mid : ∀ j, p0 ≤ j → j < q.1 → stepFun L j = some kid := by
    intro j hj1 hj2
    rw [hXY]
    exact stepFun_insert_hit X ((q :: Y')) p0 kid j
      (fun pr hpr => le_of_lt (by have := hX_lt_p0 pr hpr; omega))
      hj1
      (fun pr hpr => by
        rcases List.mem_cons.mp hpr with hx | hx
        · subst hx; omega
        · have := hY'_gt pr hx; omega)
  have hstep_q : stepFun L q.1 = some q.2 := stepFun_self L h.sorted q.1 q.2 (by
    rw [hXY]
    simp)
  have hstep_hi : ∀ p, q.1 ≤ p → ∃ r, stepFun ((q :: Y')) p = some r := by
    intro p hp
    obtain ⟨pq, idq⟩ := q
    exact stepFun_isSome_of_head pq idq p Y' (by simpa using hp)
  -- the new directory
  refine ⟨X ++ (p0, kid) :: (key >>> s, nid) :: q :: Y', ?_⟩
  have hL'eq : X ++ (p0, kid) :: (key >>> s, nid) :: q :: Y' =
      (X ++ [(p0, kid)]) ++ (key >>> s, nid) :: q :: Y' := by simp
  have hLeq : L = (X ++ [(p0, kid)]) ++ q :: Y' := by rw [hXY]; simp
  -- the top array after the tail
  have hxf1get : ∀ p, (st1.m_xf.set (key >>> s) (some nid)).getD p none =
      (if p = key >>> s then some nid else st.m_xf.getD p none) := by
    intro p
    rw [hst1xf]
    by_cases hpk : p = key >>> s
    · subst hpk
      rw [getD_set_eq _ _ _ _ hkp_len, if_pos rfl]
    · rw [getD_set_ne _ _ _ _ _ (fun hc => hpk hc.symm), if_neg hpk]
  have hcond : key >>> s + 1 < (st1.m_xf.set (key >>> s) (some nid)).length := by
    rw [List.length_set, hst1xf]
    omega
  have htgt : (st1.m_xf.set (key >>> s) (some nid)).getD (key >>> s + 1) none =
      stepFun L (key >>> s + 1) := by
    rw [hxf1get, if_neg (by omega)]
    exact h.xfEq _ (by omega)
  have hxf'val : st'.m_xf = (if key >>> s + 1 < q.1 then
      (st1.m_xf.set (key >>> s) (some nid)).take (key >>> s + 1) ++
        fillFrom (some kid) nid
          ((st1.m_xf.set (key >>> s) (some nid)).drop (key >>> s + 1))
    else st1.m_xf.set (key >>> s) (some nid)) := by
    rw [hst'tail]
    unfold insertTail
    dsimp only
    rw [if_pos hcond]
    by_cases hq1 : key >>> s + 1 < q.1
    · rw [htgt, hstep_mid (key >>> s + 1) (by omega) hq1]
      dsimp only
      rw [if_pos (by
        show (bAt st1 kid).pfx < key >>> s
        have : (bAt st1 kid).pfx = (bAt st kid).pfx := by
          unfold bAt
          show ((heap2 ++ [new_b]).getD kid default).pfx = _
          rw [getD_append_left _ _ _ _
            (by rw [hheap2, length_modifyAt, length_modifyAt]; omega), hheap2,
            getD_modifyAt_ne _ _ _ _ _ (fun hc => hkidq hc.symm),
            getD_modifyAt_eq _ _ _ _ hkid_lt]
        rw [this, hp0pfx]
        omega)]
      rw [if_pos hq1]
    · have hq1eq : key >>> s + 1 = q.1 := by omega
      rw [htgt, hq1eq, hstep_q]
      dsimp only
      rw [if_neg (by
        show ¬ (bAt st1 q.2).pfx < key >>> s
        have : (bAt st1 q.2).pfx = (bAt st q.2).pfx := by
          unfold bAt
          show ((heap2 ++ [new_b]).getD q.2 default).pfx = _
          rw [getD_append_left _ _ _ _
            (by rw [hheap2, length_modifyAt, length_modifyAt]; omega), hheap2,
            getD_modifyAt_eq _ _ _ _ (by rw [length_modifyAt]; omega),
            getD_modifyAt_ne _ _ _ _ _ hkidq]
        rw [this, hq_pfx]
        omega)]
      rw [if_neg (by omega)]
  have hxflen' : st'.m_xf.length = st.m_xf.length := by
    rw [hxf'val]
    by_cases hq1 : key >>> s + 1 < q.1
    · rw [if_pos hq1]
      simp only [List.length_append, List.length_take, length_fillFrom, List.length_drop,
        List.length_set, hst1xf]
      omega
    · rw [if_neg hq1, List.length_set, hst1xf]
  have hxfget : ∀ p, p < st.m_xf.length →
      st'.m_xf.getD p none = stepFun (X ++ (p0, kid) :: (key >>> s, nid) :: q :: Y') p := by
    intro p hp
    have hXall : ∀ pr ∈ X ++ [(p0, kid)], pr.1 ≤ key >>> s := by
      intro pr hpr
      rcases List.mem_append.mp hpr with hx | hx
      · have := hX_lt_p0 pr hx; omega
      · simp only [List.mem_singleton] at hx; subst hx; simp only; omega
    have hYall : ∀ pr ∈ q :: Y', key >>> s < pr.1 := by
      intro pr hpr
      rcases List.mem_cons.mp hpr with hx | hx
      · subst hx; omega
      · have := hY'_gt pr hx; omega
    rw [hxf'val]
    by_cases hplt : p < key >>> s
    · -- left of the new bucket: nothing changes
      have hstep' : stepFun (X ++ (p0, kid) :: (key >>> s, nid) :: q :: Y') p = stepFun L p := by
        rw [hL'eq, hLeq]
        exact stepFun_insert_lt _ _ _ _ _ (fun pr hpr => le_of_lt (hYall pr hpr)) hplt
      rw [hstep']
      by_cases hq1 : key >>> s + 1 < q.1
      · rw [if_pos hq1, getD_append_left _ _ _ _
          (by rw [List.length_take, List.length_set, hst1xf]; omega),
          getD_take _ _ _ _ (by omega), hxf1get, if_neg (by omega)]
        exact h.xfEq p hp
      · rw [if_neg hq1, hxf1get, if_neg (by omega)]
        exact h.xfEq p hp
    · by_cases hpk : p = key >>> s
      · -- exactly the new bucket
        have hstep' : stepFun (X ++ (p0, kid) :: (key >>> s, nid) :: q :: Y') p = some nid := by
          rw [hL'eq, hpk]
          exact stepFun_insert_hit _ _ _ _ _ hXall (le_refl _) hYall
        rw [hstep']
        by_cases hq1 : key >>> s + 1 < q.1
        · rw [if_pos hq1, getD_append_left _ _ _ _
            (by rw [List.length_take, List.length_set, hst1xf]; omega),
            getD_take _ _ _ _ (by omega), hxf1get, if_pos hpk]
        · rw [if_neg hq1, hxf1get, if_pos hpk]
      · have hpgt : key >>> s < p := by omega
        by_cases hpq : p < q.1
        · -- between the new bucket and its successor: the fill loop rewrote it
          have hstep' : stepFun (X ++ (p0, kid) :: (key >>> s, nid) :: q :: Y') p =
              some nid := by
            rw [hL'eq]
            exact stepFun_insert_hit _ _ _ _ _
              (fun pr hpr => le_trans (hXall pr hpr) (by omega)) (by omega)
              (fun pr hpr => by
                rcases List.mem_cons.mp hpr with hx | hx
                · subst hx; omega
                · have := hY'_gt pr hx; omega)
          rw [hstep', if_pos (by omega), getD_append_right _ _ _ _
            (by rw [List.length_take, List.length_set, hst1xf]; omega)]
          have hlen_take : (((st1.m_xf.set (key >>> s) (some nid))).take
              (key >>> s + 1)).length = key >>> s + 1 := by
            rw [List.length_take, List.length_set, hst1xf]
            omega
          rw [hlen_take, getD_fillFrom, if_pos ?allkid]
          case allkid =>
            intro j' hj1 hj2
            rw [List.length_drop, List.length_set, hst1xf] at hj2
            rw [getD_drop, hxf1get, if_neg (by omega), h.xfEq _ (by omega)]
            rw [hstep_mid _ (by omega) (by omega)]
          rw [if_pos (by
            rw [List.length_drop, List.length_set, hst1xf]
            omega)]
        · -- at or beyond the successor: the fill loop stopped earlier
          have hq1p : q.1 ≤ p := by omega
          obtain ⟨r, hr⟩ := hstep_hi p hq1p
          have hstep' : stepFun (X ++ (p0, kid) :: (key >>> s, nid) :: q :: Y') p =
              stepFun L p := by
            rw [hL'eq, hLeq]
            exact stepFun_insert_ge _ _ _ _ _ r hr (by omega)
          rw [hstep']
          by_cases hq1 : key >>> s + 1 < q.1
          · rw [if_pos hq1, getD_append_right _ _ _ _
              (by rw [List.length_take, List.length_set, hst1xf]; omega)]
            have hlen_take : (((st1.m_xf.set (key >>> s) (some nid))).take
                (key >>> s + 1)).length = key >>> s + 1 := by
              rw [List.length_take, List.length_set, hst1xf]
              omega
            rw [hlen_take, getD_fillFrom, if_neg ?stopq]
            case stopq =>
              intro hall
              have hj' := hall (q.1 - (key >>> s + 1)) (by omega) (by
                rw [List.length_drop, List.length_set, hst1xf]
                omega)
              rw [getD_drop, hxf1get, if_neg (by omega)] at hj'
              have harith : key >>> s + 1 + (q.1 - (key >>> s + 1)) = q.1 := by omega
              rw [harith, h.xfEq _ (by omega), hstep_q] at hj'
              have : q.2 = kid := by simpa using hj'
              exact hkidq this.symm
            rw [getD_drop]
            have harith : key >>> s + 1 + (p - (key >>> s + 1)) = p := by omega
            rw [harith, hxf1get, if_neg (by omega)]
            exact h.xfEq p hp
          · rw [if_neg hq1, hxf1get, if_neg (by omega)]
            exact h.xfEq p hp
  constructor
  case lNe => simp
  case sorted =>
    rw [List.pairwise_append]
    refine ⟨hsorted.1, ?_, ?_⟩
    · rw [List.pairwise_cons]
      refine ⟨?_, ?_⟩
      · intro pr hpr
        rcases List.mem_cons.mp hpr with hx | hx
        · subst hx; simp only; omega
        · rcases List.mem_cons.mp hx with hx | hx
          · subst hx; simp only; omega
          · have := hY'_gt pr hx; simp only; omega
      · rw [List.pairwise_cons]
        refine ⟨?_, (List.pairwise_cons.mp hsorted.2.1).2⟩
        intro pr hpr
        rcases List.mem_cons.mp hpr with hx | hx
        · subst hx; simp only; omega
        · have := hY'_gt pr hx; simp only; omega
    · intro a ha b hb
      have hap0 : a.1 < p0 := hX_lt_p0 a ha
      rcases List.mem_cons.mp hb with hx | hx
      · rw [hx]
        simpa using hap0
      · rcases List.mem_cons.mp hx with hx | hx
        · rw [hx]
          simp only
          omega
        · rcases List.mem_cons.mp hx with hx | hx
          · rw [hx]
            have h2 := hp0_lt_rest q (by simp)
            omega
          · have h2 := hp0_lt_rest q (by simp)
            have h3 := hY'_gt b hx
            omega
  case nodup =>
    have hn := h.nodup
    rw [hXY] at hn
    rw [List.map_append, List.map_cons, List.map_cons] at hn ⊢
    rw [List.map_cons]
    rw [List.nodup_append] at hn ⊢
    refine ⟨hn.1, ?_, ?_⟩
    · rw [List.nodup_cons] at hn ⊢
      refine ⟨?_, ?_⟩
      · intro hc
        rcases List.mem_cons.mp hc with hx | hx
        · omega
        · exact hn.2.1.1 hx
      · rw [List.nodup_cons]
        refine ⟨?_, hn.2.1.2⟩
        intro hc
        rcases List.mem_cons.mp hc with hx | hx
        · have hx2 : nid = q.2 := hx
          omega
        · obtain ⟨pr, hpr, hpr2⟩ := List.mem_map.mp hx
          have hpr3 : pr.2 = nid := hpr2
          have := h.bounded pr (by rw [hXY]; simp [hpr])
          omega
    · intro a ha hb
      have ha2 := hn.2.2 ha
      rcases List.mem_cons.mp hb with hx | hx
      · exact ha2 (by simp [hx])
      · rcases List.mem_cons.mp hx with hx | hx
        · obtain ⟨pr, hpr, hpr2⟩ := List.mem_map.mp ha
          have := h.bounded pr (by rw [hXY]; simp [hpr])
          omega
        · exact ha2 (by simp [hx])
  case bounded =>
    intro pr hpr
    rw [hhlen']
    rcases List.mem_append.mp hpr with hx | hx
    · have := h.bounded pr (by rw [hXY]; simp [hx])
      omega
    · rcases List.mem_cons.mp hx with hx | hx
      · subst hx
        have := h.bounded _ hp0mem
        omega
      · rcases List.mem_cons.mp hx with hx | hx
        · subst hx
          simp
        · have := h.bounded pr (by
            rw [hXY]
            rcases List.mem_cons.mp hx with hx2 | hx2
            · subst hx2; simp
            · simp [hx2])
          omega
  case cover =>
    intro p
    constructor
    · rintro ⟨id, hid⟩
      rcases List.mem_append.mp hid with hx | hx
      · obtain ⟨k, hk, hkp⟩ := (h.cover p).mp ⟨id, by rw [hXY]; simp [hx]⟩
        exact ⟨k, by simp [hk], hkp⟩
      · rcases List.mem_cons.mp hx with hx | hx
        · obtain ⟨k, hk, hkp⟩ := (h.cover p).mp ⟨kid, by
            rw [hXY]
            have : (p, id) = (p0, kid) := hx
            simp [Prod.ext_iff] at this
            simp [this.1]⟩
          exact ⟨k, by simp [hk], hkp⟩
        · rcases List.mem_cons.mp hx with hx | hx
          · have hpeq : p = key >>> s := by
              have h5 : (p, id) = (key >>> s, nid) := hx
              simp only [Prod.mk.injEq] at h5
              exact h5.1
            subst hpeq
            exact ⟨key, by simp, rfl⟩
          · obtain ⟨k, hk, hkp⟩ := (h.cover p).mp ⟨id, by rw [hXY]; simp [hx]⟩
            exact ⟨k, by simp [hk], hkp⟩
    · rintro ⟨k, hk, hkp⟩
      rcases List.mem_append.mp hk with hk | hk
      · obtain ⟨id, hid⟩ := (h.cover p).mpr ⟨k, hk, hkp⟩
        rw [hXY] at hid
        rcases List.mem_append.mp hid with hx | hx
        · exact ⟨id, List.mem_append_left _ hx⟩
        · rcases List.mem_cons.mp hx with hx | hx
          · exact ⟨id, List.mem_append_right _ (by simp [hx])⟩
          · exact ⟨id, List.mem_append_right _ (by simp [hx])⟩
      · simp only [List.mem_singleton] at hk
        subst hk
        subst hkp
        exact ⟨nid, List.mem_append_right _ (by simp)⟩
  case size1 => rw [hsize']; exact h.size1
  case minLb =>
    intro k hk
    rw [hmin']
    rcases List.mem_append.mp hk with hk | hk
    · exact le_trans (Nat.min_le_right _ _) (h.minLb k hk)
    · simp only [List.mem_singleton] at hk
      subst hk
      exact Nat.min_le_left _ _
  case minMem => rw [hmin']; exact min_mem_append key st.m_min S h.minMem
  case maxUb =>
    intro k hk
    rw [hmax']
    rcases List.mem_append.mp hk with hk | hk
    · exact le_trans (h.maxUb k hk) (Nat.le_max_right _ _)
    · simp only [List.mem_singleton] at hk
      subst hk
      exact Nat.le_max_left _ _
  case maxMem => rw [hmax']; exact max_mem_append key st.m_max S h.maxMem
  case xfLen =>
    rw [hxflen', hmax', max_shiftRight_eq key st.m_max s hkp_le_max]
    exact h.xfLen
  case firstB =>
    rw [hfst', h.firstB, hXY]
    cases X <;> simp
  case chain =>
    rw [hL'eq, List.chain'_append]
    refine ⟨?_, ?_, ?_⟩
    · -- the prefix chain up to the key's bucket, ending with the new pointer
      have hchain := h.chain
      rw [hLeq, List.chain'_append] at hchain
      apply chain'_imp_mem (fun a b => (bAt st a.2).next_b = some b.2) _
        (X ++ [(p0, kid)]) ?_ ?_
      · intro a ha b hb hab
        by_cases hak : a.2 = kid
        · have : a = (p0, kid) := snd_unique h.nodup a (p0, kid)
            (by rw [hXY]; rcases List.mem_append.mp ha with hx | hx
                · simp [hx]
                · simp only [List.mem_singleton] at hx; subst hx; simp)
            hp0mem hak
          subst this
          -- kid's old successor is q, but b is in X ++ [(p0,kid)]: impossible
          rw [hrel] at hab
          have hbq : b = q := snd_unique h.nodup b q
            (by rw [hXY]; rcases List.mem_append.mp hb with hx | hx
                · simp [hx]
                · simp only [List.mem_singleton] at hx; subst hx; simp)
            hq_mem (by simpa using hab.symm)
          exfalso
          rcases List.mem_append.mp hb with hx | hx
          · have h1 := hX_lt_p0 b hx
            have h2 := hp0_lt_rest q (by simp)
            rw [hbq] at h1
            omega
          · simp only [List.mem_singleton] at hx
            have h2 := hp0_lt_rest q (by simp)
            rw [← hbq, hx] at h2
            exact lt_irrefl p0 h2
        · rw [hbat_next_keep a.2 hak (h.bounded a (by
            rw [hXY]
            rcases List.mem_append.mp ha with hx | hx
            · simp [hx]
            · simp only [List.mem_singleton] at hx; subst hx; simp))]
          exact hab
      · exact hchain.1
    · -- the new bucket chains to q, then the old tail chain continues
      rw [List.chain'_cons]
      refine ⟨?_, ?_⟩
      · rw [hbat_new]
      · apply chain'_imp_mem (fun a b => (bAt st a.2).next_b = some b.2) _
          (q :: Y') ?_ ?_
        · intro a ha b hb hab
          have hak : a.2 ≠ kid := by
            intro hc
            have : a = (p0, kid) := snd_unique h.nodup a (p0, kid)
              (by rw [hXY]; simp [ha]) hp0mem hc
            have h2 := hp0_lt_rest a (by simpa [this] using ha)
            rw [this] at h2
            simp only at h2
            have := hp0_lt_rest a ha
            omega
          rw [hbat_next_keep a.2 hak (h.bounded a (by rw [hXY]; simp [ha]))]
          exact hab
        · have hchain := h.chain
          rw [hLeq, List.chain'_append] at hchain
          exact hchain.2.1
    · intro x hx y hy
      simp only [List.head?_cons, Option.mem_def, Option.some.injEq] at hy
      subst hy
      have hx2 : x = (p0, kid) := by
        rw [Option.mem_def, List.getLast?_concat] at hx
        exact (Option.some.inj hx).symm
      subst hx2
      rw [hbat_kid]
  case lastNone =>
    intro pr hpr
    rw [hL'eq, List.getLast?_append_of_ne_nil _ (by simp)] at hpr
    have hpr2 : L.getLast? = some pr := by
      rw [hLeq, List.getLast?_append_of_ne_nil _ (by simp)]
      rw [List.getLast?_cons_cons] at hpr
      cases Y' with
      | nil =>
        simp only [List.getLast?_singleton] at hpr ⊢
        exact hpr
      | cons y2 Y2 => exact hpr
    have hprmem : pr ∈ L := mem_of_getLast?_eq _ _ hpr2
    have hprk : pr.2 ≠ kid := by
      intro hc
      have : pr = (p0, kid) := snd_unique h.nodup pr (p0, kid) hprmem hp0mem hc
      have h1 := h.last_pfx pr hpr2
      rw [this] at h1
      simp only at h1
      omega
    rw [hbat_next_keep pr.2 hprk (h.bounded pr hprmem)]
    exact h.lastNone pr hpr2
  case pfxEq =>
    intro pr hpr
    rcases List.mem_append.mp hpr with hx | hx
    · rw [(hbat_keep pr.2 (h.bounded pr (by rw [hXY]; simp [hx]))).1]
      exact h.pfxEq pr (by rw [hXY]; simp [hx])
    · rcases List.mem_cons.mp hx with hx | hx
      · subst hx
        rw [(hbat_keep kid hkid_lt).1]
        exact hp0pfx
      · rcases List.mem_cons.mp hx with hx | hx
        · subst hx
          rw [hbat_new]
        · rw [(hbat_keep pr.2 (h.bounded pr (by
            rw [hXY]
            rcases List.mem_cons.mp hx with hx2 | hx2
            · subst hx2; simp
            · simp [hx2]))).1]
          exact h.pfxEq pr (by
            rw [hXY]
            rcases List.mem_cons.mp hx with hx2 | hx2
            · subst hx2; simp
            · simp [hx2])
  case elemsEq =>
    intro pr hpr e
    have hold : ∀ pr2, pr2 ∈ L → ((e ∈ (bAt st' pr2.2).elems) ↔
        ∃ k ∈ S ++ [key], k >>> s = pr2.1 ∧ k % 2 ^ s = e) := by
      intro pr2 hpr2
      rw [(hbat_keep pr2.2 (h.bounded pr2 hpr2)).2, h.elemsEq pr2 hpr2 e]
      constructor
      · rintro ⟨k, hk, hkp, hke⟩
        exact ⟨k, by simp [hk], hkp, hke⟩
      · rintro ⟨k, hk, hkp, hke⟩
        rcases List.mem_append.mp hk with hk | hk
        · exact ⟨k, hk, hkp, hke⟩
        · simp only [List.mem_singleton] at hk
          subst hk
          exfalso
          have : ∃ id2, (pr2.1, id2) ∈ L := ⟨pr2.2, by simpa using hpr2⟩
          obtain ⟨k2, hk2, hk2p⟩ := (h.cover pr2.1).mp this
          exact hkp_not_in k2 hk2 (by omega)
    rcases List.mem_append.mp hpr with hx | hx
    · exact hold pr (by rw [hXY]; simp [hx])
    · rcases List.mem_cons.mp hx with hx | hx
      · subst hx
        exact hold (p0, kid) hp0mem
      · rcases List.mem_cons.mp hx with hx | hx
        · subst hx
          rw [hbat_new]
          show e ∈ sset (key &&& (2 ^ s - 1)) [] ↔ _
          rw [and_mask_eq_mod, hset (key % 2 ^ s) [] e (mod_lt_two_pow key s)]
          constructor
          · rintro (rfl | he)
            · exact ⟨key, by simp⟩
            · simp at he
          · rintro ⟨k, hk, hkp, hke⟩
            rcases List.mem_append.mp hk with hk | hk
            · exact absurd hkp (hkp_not_in k hk)
            · simp only [List.mem_singleton] at hk
              subst hk
              exact Or.inl hke.symm
        · exact hold pr (by
            rw [hXY]
            rcases List.mem_cons.mp hx with hx2 | hx2
            · subst hx2; simp
            · simp [hx2])
  case prevEq =>
    intro pr hpr
    have hfilter_eq : S.filter (fun k => k >>> s < q.1) =
        S.filter (fun k => k >>> s < key >>> s) := by
      apply List.filter_congr
      intro k hk
      obtain ⟨id2, hid2⟩ := (h.cover (k >>> s)).mpr ⟨k, hk, rfl⟩
      rw [decide_eq_decide]
      rcases hno_between (k >>> s, id2) hid2 with hcase | hcase
      · simp only at hcase
        omega
      · simp only at hcase
        omega
    have hfilter_key : ∀ k ∈ S.filter (fun k => k >>> s < q.1), k ≤ key := by
      intro k hk
      rw [List.mem_filter] at hk
      obtain ⟨id2, hid2⟩ := (h.cover (k >>> s)).mpr ⟨k, hk.1, rfl⟩
      have hklt : k >>> s < key >>> s := by
        rcases hno_between (k >>> s, id2) hid2 with hcase | hcase
        · simp only at hcase
          omega
        · simp only at hcase
          simp only [decide_eq_true_eq] at hk
          omega
      have h1 : k < (key >>> s) <<< s := (shiftRight_lt_iff_lt_shiftLeft _ _ _).mp hklt
      have h2 : (key >>> s) <<< s ≤ key := shiftLeft_le_of_shiftRight_le _ _ _ (le_refl _)
      omega
    rcases List.mem_append.mp hpr with hx | hx
    · -- a bucket in X
      have hprmem : pr ∈ L := by rw [hXY]; simp [hx]
      have hprq : pr.2 ≠ q.2 := by
        intro hc
        have : pr = q := snd_unique h.nodup pr q hprmem hq_mem hc
        have h1 := hX_lt_p0 pr hx
        have h2 := hp0_lt_rest q (by simp)
        rw [this] at h1
        omega
      rw [hbat_prev_keep pr.2 hprq (h.bounded pr hprmem), h.prevEq pr hprmem,
        filter_append_key_out S key s pr.1 (by have := hX_lt_p0 pr hx; omega)]
    · rcases List.mem_cons.mp hx with hx | hx
      · -- the gap-predecessor bucket (p0, kid)
        subst hx
        rw [hbat_prev_keep kid (fun hc => hkidq hc) hkid_lt, h.prevEq _ hp0mem,
          filter_append_key_out S key s p0 (by omega)]
      · rcases List.mem_cons.mp hx with hx | hx
        · -- the new bucket: inherits the successor's old prev_pred
          subst hx
          rw [hbat_new]
          show pp = _
          have hpp_eq : pp = maxOf (S.filter (fun k => k >>> s < q.1)) := h.prevEq q hq_mem
          rw [hpp_eq, hfilter_eq,
            filter_append_key_out S key s (key >>> s) (by omega)]
        · rcases List.mem_cons.mp hx with hx | hx
          · -- the successor bucket q: prev_pred becomes the new key
            subst hx
            rw [hbat_q]
            show key = _
            rw [filter_append_key_in S key s pr.1 (by simpa using hq_gt_kp),
              maxOf_append, maxOf_singleton]
            exact (Nat.max_eq_right (maxOf_le _ key hfilter_key)).symm
          · -- buckets beyond the successor: dominated
            have hprmem : pr ∈ L := by rw [hXY]; simp [hx]
            have hprq : pr.2 ≠ q.2 := by
              intro hc
              have : pr = q := snd_unique h.nodup pr q hprmem hq_mem hc
              have h1 := hY'_gt pr hx
              rw [this] at h1
              omega
            rw [hbat_prev_keep pr.2 hprq (h.bounded pr hprmem), h.prevEq pr hprmem,
              maxOf_dominated h key q.1 pr.1 ⟨q.2, by simpa using hq_mem⟩ hq_gt_kp
                (hY'_gt pr hx)]
  case xfEq =>
    intro p hp
    rw [hxflen'] at hp
    exact hxfget p hp

/-- `DynIndex::insert` preserves the reachable-state invariant: the branch
dispatch of `dynInsert` lands in the branch whose `invat_…` lemma applies,
and in particular the null-pointer branch (`m_xf[key_pre] == nullptr` with
`prefix(m_min) <= key_pre < m_xf.size()`) is unreachable. -/
lemma dyninv_insert (s : Nat) (sset : Nat → List Nat → List Nat) (hset : SetOk s sset)
    (S : List Nat) (st : DynState) (key : Nat) (h : DynInv s S st) :
    DynInv s (S ++ [key]) (dynInsert sset s st key) := by
  cases S with
  | nil =>
    have hst : st = dynInit := h
    subst hst
    exact ⟨[(key >>> s, 0)], invat_first sset s key hset⟩
  | cons k0 S' =>
    obtain ⟨L, hinv⟩ := h
    show ∃ L', InvAt s ((k0 :: S') ++ [key]) (dynInsert sset s st key) L'
    by_cases hlen : st.m_xf.length ≤ key >>> s
    · -- a key that needs a greater bucket
      have hd : dynInsert sset s st key = insertGrow sset s st key := by
        unfold dynInsert
        dsimp only
        rw [if_pos hlen, if_pos (by rw [hinv.size1]; decide)]
      rw [hd]
      exact ⟨_, invat_grow s sset hset _ st L hinv key hlen⟩
    · push_neg at hlen
      by_cases hfront : key >>> s < st.m_min >>> s
      · -- a key inserted before the first bucket
        have hd : dynInsert sset s st key = insertFront sset s st key := by
          unfold dynInsert
          dsimp only
          rw [if_neg (by omega), if_pos hfront]
        rw [hd]
        exact ⟨_, invat_front s sset hset _ st L hinv key hfront⟩
      · -- in between: the xfast entry is non-null
        obtain ⟨h0, T, hLT⟩ : ∃ h0 T, L = h0 :: T := by
          cases L with
          | nil => exact absurd rfl hinv.lNe
          | cons a t => exact ⟨a, t, rfl⟩
        have hh0 : L.head? = some h0 := by rw [hLT]; rfl
        have hminP : h0.1 = st.m_min >>> s := hinv.head_pfx h0 hh0
        obtain ⟨kid, hkid⟩ : ∃ r, stepFun L (key >>> s) = some r := by
          rw [hLT]
          obtain ⟨p1, id1⟩ := h0
          have hminP2 : p1 = st.m_min >>> s := hminP
          exact stepFun_isSome_of_head p1 id1 (key >>> s) T (by omega)
        have hxfget : st.m_xf.getD (key >>> s) none = some kid := by
          rw [hinv.xfEq _ hlen, hkid]
        by_cases hpfx : (st.heap.getD kid default).pfx = key >>> s
        · -- the exact bucket exists
          have hmem : (key >>> s, kid) ∈ L := by
            obtain ⟨p0, hp0mem, hp0le, hp0max⟩ := stepFun_spec L _ hinv.sorted kid hkid
            have hp0pfx : (st.heap.getD kid default).pfx = p0 := hinv.pfxEq _ hp0mem
            have hp0eq : p0 = key >>> s := by omega
            rw [← hp0eq]
            exact hp0mem
          have hd : dynInsert sset s st key = insertExact sset s st key kid := by
            unfold dynInsert
            dsimp only
            rw [if_neg (by omega), if_neg (by omega), hxfget]
            dsimp only
            rw [if_pos hpfx]
          rw [hd]
          exact ⟨_, invat_exact s sset hset _ st L hinv key kid hmem⟩
        · -- the gap case
          have hd : dynInsert sset s st key = insertGap sset s st key kid := by
            unfold dynInsert
            dsimp only
            rw [if_neg (by omega), if_neg (by omega), hxfget]
            dsimp only
            rw [if_neg hpfx]
          rw [hd]
          exact invat_gap s sset hset _ st L hinv key kid hlen hfront hxfget hpfx

/-- Every state reachable by a sequence of insertions satisfies the invariant. -/
lemma dyninv_dynOf (s : Nat) (sset : Nat → List Nat → List Nat) (hset : SetOk s sset)
    (ks : List Nat) : DynInv s ks (dynOf sset s ks) := by
  have hgen : ∀ (l : List Nat) (S : List Nat) (st : DynState), DynInv s S st →
      DynInv s (S ++ l) (l.foldl (dynInsert sset s) st) := by
    intro l
    induction l with
    | nil =>
      intro S st h
      simpa using h
    | cons k rest ih =>
      intro S st h
      have h1 := dyninv_insert s sset hset S st k h
      have h2 := ih (S ++ [k]) _ h1
      simpa using h2
  have hres := hgen ks [] dynInit rfl
  simpa [dynOf] using hres

/-- C1: REFUTED.  With sampling width `s = 4`, inserting the keys 21 and 48
and querying `x = 35`: a key `≤ 35` exists (21), so the claim demands
`{true, 21}`, but both the bitset and the list variant return `{true, 0}`.
The query prefix `35 >>> 4 = 2` is unoccupied, so `m_xf[2]` is the bucket
with prefix `1`; its `pred(suffix 3)` finds no suffix `≤ 3` in the bucket
(21 has suffix 5) and falls back to `prev_pred = 0`, missing the true
predecessor 21. -/
theorem dynIndex_predecessor_gap_counterexample :
    (∃ k ∈ ([21, 48] : List Nat), k ≤ 35) ∧
    maxLe 35 [21, 48] = some 21 ∧
    dynPredecessor bucket_bv_pred 4 (dynOf bv_set 4 [21, 48]) 35 = ⟨true, 0⟩ ∧
    dynPredecessor bucket_list_pred 4 (dynOf list_set 4 [21, 48]) 35 = ⟨true, 0⟩ := by
  refine ⟨⟨21, by decide, by decide⟩, by decide, by decide, by decide⟩

/-- C5: REFUTED.  On the insertion sequence `[21, 48]` with query 35 the
bitset index, the list index and the batched index all return `{true, 0}`
while the Octrie (which by its specified contract reports the exact
predecessor) returns `{true, 21}`: the four structures do not agree. -/
theorem index_variants_disagree_with_octrie :
    dynPredecessor bucket_bv_pred 4 (dynOf bv_set 4 [21, 48]) 35 = ⟨true, 0⟩ ∧
    dynPredecessor bucket_list_pred 4 (dynOf list_set 4 [21, 48]) 35 = ⟨true, 0⟩ ∧
    batchedPredecessor bv_set bucket_bv_pred 4 [21, 48] 35 = ⟨true, 0⟩ ∧
    octriePredecessor [21, 48] 35 = ⟨true, 21⟩ := by
  refine ⟨by decide, by decide, by decide, by decide⟩

/-- C3: boundary results of `DynIndex::predecessor`.  With no key ever
inserted the result is `{false, 1}`; after a nonempty insertion sequence,
a query below every inserted key returns `{false, 0}`, and a query at or
above every inserted key returns `{true, m_max}` where `m_max` is the
largest inserted key. -/
theorem dynIndex_predecessor_boundary_results
    (sset : Nat → List Nat → List Nat) (bpred : Bucket → Nat → Nat → Nat)
    (s : Nat) (hset : SetOk s sset) (ks : List Nat) (x : Nat) (hne : ks ≠ []) :
    (dynPredecessor bpred s (dynOf sset s []) x = ⟨false, 1⟩) ∧
    ((∀ k ∈ ks, x < k) → dynPredecessor bpred s (dynOf sset s ks) x = ⟨false, 0⟩) ∧
    ((∀ k ∈ ks, k ≤ x) →
      dynPredecessor bpred s (dynOf sset s ks) x = ⟨true, (dynOf sset s ks).m_max⟩ ∧
      (dynOf sset s ks).m_max ∈ ks ∧ ∀ k ∈ ks, k ≤ (dynOf sset s ks).m_max) := by
  obtain ⟨k0, ks', rfl⟩ : ∃ k0 ks', ks = k0 :: ks' := by
    cases ks with
    | nil => exact absurd rfl hne
    | cons a t => exact ⟨a, t, rfl⟩
  obtain ⟨L, hinv⟩ := dyninv_dynOf s sset hset (k0 :: ks')
  refine ⟨rfl, ?_, ?_⟩
  · intro hlt
    have h1 : x < (dynOf sset s (k0 :: ks')).m_min := hlt _ hinv.minMem
    unfold dynPredecessor
    rw [if_neg (by rw [hinv.size1]; decide), if_pos h1]
  · intro hge
    have h1 : (dynOf sset s (k0 :: ks')).m_max ≤ x := hge _ hinv.maxMem
    have h2 : ¬ x < (dynOf sset s (k0 :: ks')).m_min := by
      have := hge _ hinv.minMem
      have := hinv.minLb _ hinv.minMem
      omega
    refine ⟨?_, hinv.maxMem, hinv.maxUb⟩
    unfold dynPredecessor
    rw [if_neg (by rw [hinv.size1]; decide), if_neg h2, if_pos h1]

theorem dynIndex_predecessor_boundary_results_witness :
    SetOk 4 bv_set ∧ ([21, 48] : List Nat) ≠ [] ∧
    ((dynPredecessor bucket_bv_pred 4 (dynOf bv_set 4 []) 10 = ⟨false, 1⟩) ∧
     ((∀ k ∈ ([21, 48] : List Nat), 10 < k) →
        dynPredecessor bucket_bv_pred 4 (dynOf bv_set 4 [21, 48]) 10 = ⟨false, 0⟩) ∧
     ((∀ k ∈ ([21, 48] : List Nat), k ≤ 10) →
        dynPredecessor bucket_bv_pred 4 (dynOf bv_set 4 [21, 48]) 10 =
          ⟨true, (dynOf bv_set 4 [21, 48]).m_max⟩ ∧
        (dynOf bv_set 4 [21, 48]).m_max ∈ ([21, 48] : List Nat) ∧
        ∀ k ∈ ([21, 48] : List Nat), k ≤ (dynOf bv_set 4 [21, 48]).m_max)) :=
  ⟨bv_set_ok 4, by decide,
    dynIndex_predecessor_boundary_results bv_set bucket_bv_pred 4 (bv_set_ok 4)
      [21, 48] 10 (by decide)⟩

/-- C6: after every nonempty insertion sequence the buckets form a
`next_b`-linked chain in strictly ascending prefix order: the directory `L`
starts at `m_first_b`, successive entries are linked by `next_b`, the last
entry's `next_b` is null, and `L` covers exactly the occupied prefixes (one
entry per prefix of an inserted key), so `L` is the entire bucket chain.
Every bucket's `prev_pred` equals the largest inserted key strictly smaller
than the bucket's key range (equivalently, than its smallest contained
key), i.e. `maxOf` of the inserted keys below `prefix <<< s` — which is 0
for the first bucket, where no such key exists. -/
theorem dynIndex_chain_prev_pred_invariant
    (sset : Nat → List Nat → List Nat) (s : Nat) (hset : SetOk s sset)
    (ks : List Nat) (hne : ks ≠ []) :
    ∃ L : List (Nat × Nat), L ≠ [] ∧
      (dynOf sset s ks).m_first_b = L.head?.map Prod.snd ∧
      L.Pairwise (fun a b => a.1 < b.1) ∧
      L.Chain' (fun a b => (bAt (dynOf sset s ks) a.2).next_b = some b.2) ∧
      (∀ pr, L.getLast? = some pr → (bAt (dynOf sset s ks) pr.2).next_b = none) ∧
      (∀ p, (∃ id, (p, id) ∈ L) ↔ ∃ k ∈ ks, k >>> s = p) ∧
      (∀ pr ∈ L, (bAt (dynOf sset s ks) pr.2).pfx = pr.1) ∧
      (∀ pr ∈ L, (bAt (dynOf sset s ks) pr.2).prev_pred =
        maxOf (ks.filter (fun k => k < pr.1 <<< s))) := by
  obtain ⟨k0, ks', rfl⟩ : ∃ k0 ks', ks = k0 :: ks' := by
    cases ks with
    | nil => exact absurd rfl hne
    | cons a t => exact ⟨a, t, rfl⟩
  obtain ⟨L, hinv⟩ := dyninv_dynOf s sset hset (k0 :: ks')
  refine ⟨L, hinv.lNe, hinv.firstB, hinv.sorted, hinv.chain, hinv.lastNone,
    hinv.cover, hinv.pfxEq, ?_⟩
  intro pr hpr
  rw [hinv.prevEq pr hpr]
  congr 1
  apply List.filter_congr
  intro k _
  rw [decide_eq_decide]
  exact shiftRight_lt_iff_lt_shiftLeft k pr.1 s

theorem dynIndex_chain_prev_pred_invariant_witness :
    SetOk 4 bv_set ∧ ([21, 48] : List Nat) ≠ [] ∧
    (∃ L : List (Nat × Nat), L ≠ [] ∧
      (dynOf bv_set 4 [21, 48]).m_first_b = L.head?.map Prod.snd ∧
      L.Pairwise (fun a b => a.1 < b.1) ∧
      L.Chain' (fun a b => (bAt (dynOf bv_set 4 [21, 48]) a.2).next_b = some b.2) ∧
      (∀ pr, L.getLast? = some pr → (bAt (dynOf bv_set 4 [21, 48]) pr.2).next_b = none) ∧
      (∀ p, (∃ id, (p, id) ∈ L) ↔ ∃ k ∈ ([21, 48] : List Nat), k >>> 4 = p) ∧
      (∀ pr ∈ L, (bAt (dynOf bv_set 4 [21, 48]) pr.2).pfx = pr.1) ∧
      (∀ pr ∈ L, (bAt (dynOf bv_set 4 [21, 48]) pr.2).prev_pred =
        maxOf (([21, 48] : List Nat).filter (fun k => k < pr.1 <<< 4)))) :=
  ⟨bv_set_ok 4, by decide,
    dynIndex_chain_prev_pred_invariant bv_set 4 (bv_set_ok 4) [21, 48] (by decide)⟩

/-- C7: the top array `m_xf` is a step function over prefixes.  For every
in-range prefix `p` at or above some occupied prefix, `m_xf[p]` is non-null
and points to the bucket with the greatest occupied prefix `≤ p`; and every
entry strictly below all occupied prefixes is null. -/
theorem dynIndex_xf_step_function
    (sset : Nat → List Nat → List Nat) (s : Nat) (hset : SetOk s sset)
    (ks : List Nat) (hne : ks ≠ []) (p : Nat)
    (hp : p < (dynOf sset s ks).m_xf.length) :
    ((∃ k ∈ ks, k >>> s ≤ p) →
      ∃ bid, (dynOf sset s ks).m_xf.getD p none = some bid ∧
        (∃ k ∈ ks, k >>> s = (bAt (dynOf sset s ks) bid).pfx) ∧
        (bAt (dynOf sset s ks) bid).pfx ≤ p ∧
        (∀ k ∈ ks, k >>> s ≤ p → k >>> s ≤ (bAt (dynOf sset s ks) bid).pfx)) ∧
    ((∀ k ∈ ks, p < k >>> s) → (dynOf sset s ks).m_xf.getD p none = none) := by
  obtain ⟨k0, ks', rfl⟩ : ∃ k0 ks', ks = k0 :: ks' := by
    cases ks with
    | nil => exact absurd rfl hne
    | cons a t => exact ⟨a, t, rfl⟩
  obtain ⟨L, hinv⟩ := dyninv_dynOf s sset hset (k0 :: ks')
  obtain ⟨h0, T, hLT⟩ : ∃ h0 T, L = h0 :: T := by
    cases L with
    | nil => exact absurd rfl hinv.lNe
    | cons a t => exact ⟨a, t, rfl⟩
  have hh0 : L.head? = some h0 := by rw [hLT]; rfl
  constructor
  · rintro ⟨k, hk, hkp⟩
    have hminle : (dynOf sset s (k0 :: ks')).m_min ≤ k := hinv.minLb k hk
    have hminP : h0.1 = (dynOf sset s (k0 :: ks')).m_min >>> s := hinv.head_pfx h0 hh0
    have h1 : h0.1 ≤ p := by
      have := shiftRight_mono _ _ s hminle
      omega
    obtain ⟨bid, hbid⟩ : ∃ r, stepFun L p = some r := by
      rw [hLT]
      obtain ⟨p1, id1⟩ := h0
      have h1b : p1 ≤ p := h1
      exact stepFun_isSome_of_head p1 id1 p T h1b
    obtain ⟨p0, hp0mem, hp0le, hp0max⟩ := stepFun_spec L p hinv.sorted bid hbid
    have hpfx : (bAt (dynOf sset s (k0 :: ks')) bid).pfx = p0 := hinv.pfxEq _ hp0mem
    refine ⟨bid, ?_, ?_, by omega, ?_⟩
    · rw [hinv.xfEq p hp, hbid]
    · obtain ⟨k2, hk2, hk2p⟩ := (hinv.cover p0).mp ⟨bid, hp0mem⟩
      exact ⟨k2, hk2, by omega⟩
    · intro k3 hk3 hk3p
      obtain ⟨id3, hid3⟩ := (hinv.cover (k3 >>> s)).mpr ⟨k3, hk3, rfl⟩
      have := hp0max _ hid3 hk3p
      omega
  · intro hall
    rw [hinv.xfEq p hp, hLT]
    have hplt : p < h0.1 := by
      obtain ⟨k2, hk2, hk2p⟩ := (hinv.cover h0.1).mp ⟨h0.2, by rw [hLT]; simp⟩
      have := hall k2 hk2
      omega
    obtain ⟨p1, id1⟩ := h0
    have hplt2 : p < p1 := hplt
    simp only [stepFun]
    rw [if_pos hplt2]

theorem dynIndex_xf_step_function_witness :
    SetOk 4 bv_set ∧ ([21, 48] : List Nat) ≠ [] ∧
    2 < (dynOf bv_set 4 [21, 48]).m_xf.length ∧
    (((∃ k ∈ ([21, 48] : List Nat), k >>> 4 ≤ 2) →
      ∃ bid, (dynOf bv_set 4 [21, 48]).m_xf.getD 2 none = some bid ∧
        (∃ k ∈ ([21, 48] : List Nat), k >>> 4 = (bAt (dynOf bv_set 4 [21, 48]) bid).pfx) ∧
        (bAt (dynOf bv_set 4 [21, 48]) bid).pfx ≤ 2 ∧
        (∀ k ∈ ([21, 48] : List Nat), k >>> 4 ≤ 2 →
          k >>> 4 ≤ (bAt (dynOf bv_set 4 [21, 48]) bid).pfx)) ∧
     ((∀ k ∈ ([21, 48] : List Nat), 2 < k >>> 4) →
      (dynOf bv_set 4 [21, 48]).m_xf.getD 2 none = none)) :=
  ⟨bv_set_ok 4, by decide, by decide,
    dynIndex_xf_step_function bv_set 4 (bv_set_ok 4) [21, 48] (by decide) 2 (by decide)⟩

/-- C10: after every nonempty insertion sequence, the last entry of `m_xf`
points to the bucket whose prefix is `m_xf.size() - 1`; consequently, in
the gap branch of `insert` (the bucket stored at `m_xf[key_pre]` exists but
has a strictly smaller prefix) the addressed bucket's `next_b` is non-null,
so the `new_b->next_b->prev_pred` accesses of that branch never dereference
a null pointer. -/
theorem dynIndex_gap_next_nonnull
    (sset : Nat → List Nat → List Nat) (s : Nat) (hset : SetOk s sset)
    (ks : List Nat) (hne : ks ≠ []) :
    (∀ bid, ((dynOf sset s ks).m_xf.getLast?).getD none = some bid →
      (bAt (dynOf sset s ks) bid).pfx + 1 = (dynOf sset s ks).m_xf.length) ∧
    (∀ key kid, key >>> s < (dynOf sset s ks).m_xf.length →
      ¬ key >>> s < (dynOf sset s ks).m_min >>> s →
      (dynOf sset s ks).m_xf.getD (key >>> s) none = some kid →
      (bAt (dynOf sset s ks) kid).pfx ≠ key >>> s →
      (bAt (dynOf sset s ks) kid).next_b ≠ none) := by
  obtain ⟨k0, ks', rfl⟩ : ∃ k0 ks', ks = k0 :: ks' := by
    cases ks with
    | nil => exact absurd rfl hne
    | cons a t => exact ⟨a, t, rfl⟩
  obtain ⟨L, hinv⟩ := dyninv_dynOf s sset hset (k0 :: ks')
  have hprl : L.getLast? = some (L.getLast hinv.lNe) :=
    List.getLast?_eq_getLast_of_ne_nil hinv.lNe
  constructor
  · intro bid hbid
    have hback := hinv.xf_back _ hprl
    rw [hback] at hbid
    have hbid2 : (L.getLast hinv.lNe).2 = bid := Option.some.inj hbid
    have hpfx := hinv.pfxEq _ (mem_of_getLast?_eq _ _ hprl)
    have hlp := hinv.last_pfx _ hprl
    have hlen := hinv.xfLen
    rw [← hbid2, hpfx]
    omega
  · intro key kid hkp_len hge hxf hpfx_ne
    have hstep : stepFun L (key >>> s) = some kid := by rw [← hinv.xfEq _ hkp_len, hxf]
    obtain ⟨p0, hp0mem, hp0le, hp0max⟩ := stepFun_spec L _ hinv.sorted kid hstep
    have hp0pfx : (bAt (dynOf sset s (k0 :: ks')) kid).pfx = p0 := hinv.pfxEq _ hp0mem
    have hp0_lt : p0 < key >>> s := by omega
    obtain ⟨X, Y, hXY⟩ := List.append_of_mem hp0mem
    have hxflen := hinv.xfLen
    have hYne : Y ≠ [] := by
      intro hc
      subst hc
      have hlast : L.getLast? = some (p0, kid) := by
        rw [hXY]
        exact List.getLast?_concat X
      have h5 := hinv.last_pfx _ hlast
      have h6 : p0 = (dynOf sset s (k0 :: ks')).m_max >>> s := h5
      omega
    obtain ⟨q, Y', rfl⟩ : ∃ q Y', Y = q :: Y' := by
      cases Y with
      | nil => exact absurd rfl hYne
      | cons a t => exact ⟨a, t, rfl⟩
    have hrel : (bAt (dynOf sset s (k0 :: ks')) kid).next_b = some q.2 := by
      have hchain := hinv.chain
      rw [hXY] at hchain
      exact (List.chain'_cons.mp (List.chain'_append.mp hchain).2.1).1
    rw [hrel]
    exact Option.some_ne_none _

theorem dynIndex_gap_next_nonnull_witness :
    SetOk 4 bv_set ∧ ([21, 48] : List Nat) ≠ [] ∧
    ((∀ bid, ((dynOf bv_set 4 [21, 48]).m_xf.getLast?).getD none = some bid →
      (bAt (dynOf bv_set 4 [21, 48]) bid).pfx + 1 = (dynOf bv_set 4 [21, 48]).m_xf.length) ∧
     (∀ key kid, key >>> 4 < (dynOf bv_set 4 [21, 48]).m_xf.length →
      ¬ key >>> 4 < (dynOf bv_set 4 [21, 48]).m_min >>> 4 →
      (dynOf bv_set 4 [21, 48]).m_xf.getD (key >>> 4) none = some kid →
      (bAt (dynOf bv_set 4 [21, 48]) kid).pfx ≠ key >>> 4 →
      (bAt (dynOf bv_set 4 [21, 48]) kid).next_b ≠ none)) :=
  ⟨bv_set_ok 4, by decide,
    dynIndex_gap_next_nonnull bv_set 4 (bv_set_ok 4) [21, 48] (by decide)⟩
